import Mathlib

/-!
# Verification of the three.js Blender export core

This file gives a shallow embedding of the geometry deduplication /
buffer-encoding engine of the `io_scene_three` add-on and of its custom
streaming JSON encoder, and proves (or refutes) the specified properties.

* `ThreeJS.export_mesh` models the material/face/loop walk of
  `io_scene_three/mesh.py::export_mesh` (lines 253-389): the shared
  vertex-deduplication map, the index stream, the per-material groups and
  the running min/max bounds used for the bounding sphere.
* `ThreeJS.encode_float` models `io_scene_three/encoder.py::Encoder.encode_float`.
* `ThreeJS.encTree` models `Encoder.iterencode` on tree-shaped (acyclic,
  non-shared) inputs, where the `id()`-based cycle/markers machinery never
  fires; `ThreeJS.encH` models it on heap/reference-shaped inputs, with the
  markers set and generator exhaustion made explicit, for the cycle claims.

The host-API adapter code (bmesh construction, UV layer selection, armature
lookups) is out of scope: the embedding starts from the per-face-vertex
attribute tuples the walk consumes, exactly as the loop body builds them.
-/

namespace ThreeJS

/-! ## Mesh data model (mesh.py) -/

/-- A 3-component vector of exact scalars (models the float triples). -/
abbrev Vec3 := ℚ × ℚ × ℚ

/-- A 2-component vector. -/
abbrev Vec2 := ℚ × ℚ

/-- The per-face-vertex attribute tuple built by the loop body of
`export_mesh` (mesh.py lines 300-365):
`(position, normal, uv, uv2, color, skin_index, skin_weight)`.
Optional attributes are `None` (here `Option.none`) when the geometry does
not declare them. -/
structure VertexData where
  position : Vec3
  normal : Vec3
  uv : Option Vec2
  uv2 : Option Vec2
  color : Option Vec3
  skin_index : Option (ℕ × ℕ × ℕ × ℕ)
  skin_weight : Option (ℚ × ℚ × ℚ × ℚ)
deriving DecidableEq, Repr

/-- One (already triangulated) bmesh face: its material index and its loops'
attribute tuples, in loop order. -/
structure Face where
  material_index : ℕ
  loops : List VertexData
deriving DecidableEq, Repr

/-- A geometry group, `_create_group` (mesh.py lines 209-214). -/
structure Group where
  start : ℕ
  count : ℕ
  materialIndex : ℕ
deriving DecidableEq, Repr

/-- The mutable state threaded through the `export_mesh` walk:
`vertex_map` (an insertion-ordered dict, modelled as the ordered list of its
keys, a key's value being its position in the list), `index_array`,
`groups`, and the running bounds `min_vertex` / `max_vertex`
(both initialised to `Vector()`, i.e. the zero vector - mesh.py line 254). -/
structure MeshState where
  uniq : List VertexData
  index_array : List ℕ
  groups : List Group
  min_vertex : Vec3
  max_vertex : Vec3
deriving DecidableEq, Repr

/-- Componentwise minimum (the `min(...)` lines of `_update_bounds`). -/
def vmin (a b : Vec3) : Vec3 :=
  (min a.1 b.1, min a.2.1 b.2.1, min a.2.2 b.2.2)

/-- Componentwise maximum (the `max(...)` lines of `_update_bounds`). -/
def vmax (a b : Vec3) : Vec3 :=
  (max a.1 b.1, max a.2.1 b.2.1, max a.2.2 b.2.2)

/-- `_update_bounds(vert.co)` (mesh.py lines 201-207). -/
def update_bounds (st : MeshState) (co : Vec3) : MeshState :=
  { st with min_vertex := vmin st.min_vertex co,
            max_vertex := vmax st.max_vertex co }

/-- The body of the inner loop of `export_mesh` (mesh.py lines 294-371) for
one face loop: update the bounds, then look the attribute tuple up in the
shared `vertex_map`, assigning the next sequential index on a miss, and
append the resolved index to `index_array`. -/
def process_loop (st : MeshState) (v : VertexData) : MeshState :=
  let st := update_bounds st v.position
  if v ∈ st.uniq then
    { st with index_array := st.index_array ++ [st.uniq.indexOf v] }
  else
    { st with uniq := st.uniq ++ [v],
              index_array := st.index_array ++ [st.uniq.length] }

/-- The faces processed for material slot `mi`:
`iter(f for f in bm.faces if f.material_index == mat_index)` (line 293). -/
def material_faces (faces : List Face) (mi : ℕ) : List Face :=
  faces.filter (fun f => f.material_index = mi)

/-- The face-vertex stream contributed by material slot `mi`, in face order
then loop order. -/
def material_stream (faces : List Face) (mi : ℕ) : List VertexData :=
  (material_faces faces mi).flatMap (fun f => f.loops)

/-- One iteration of the outer material loop (mesh.py lines 280-376):
record `group_start = len(index_array)`, process every face of this
material loop by loop, then append the group record - unconditionally. -/
def process_material (faces : List Face) (st : MeshState) (mi : ℕ) : MeshState :=
  let group_start := st.index_array.length
  let st' := (material_faces faces mi).foldl
    (fun acc f => f.loops.foldl process_loop acc) st
  { st' with groups := st'.groups ++
      [⟨group_start, st'.index_array.length - group_start, mi⟩] }

/-- The zero vector, `mathutils.Vector()`. -/
def zero3 : Vec3 := (0, 0, 0)

/-- The state at mesh.py lines 253-274: everything empty, bounds at the
origin. -/
def init_state : MeshState := ⟨[], [], [], zero3, zero3⟩

/-- `enumerate(mesh.materials or [None])`: a geometry with zero material
slots is processed as a single implicit slot 0. -/
def mat_count (num_materials : ℕ) : ℕ :=
  if num_materials = 0 then 1 else num_materials

/-- The whole deduplication walk of `export_mesh` (mesh.py lines 280-376),
abstracted over the host adapter: `num_materials` is `len(mesh.materials)`
and `faces` the triangulated, material-sorted bmesh faces with their
per-loop attribute tuples. -/
def export_mesh (num_materials : ℕ) (faces : List Face) : MeshState :=
  (List.range (mat_count num_materials)).foldl (process_material faces) init_state

/-- The full face-vertex input stream, in the processing order: material
slot ascending, then face order, then loop order. -/
def vertexStream (num_materials : ℕ) (faces : List Face) : List VertexData :=
  (List.range (mat_count num_materials)).flatMap (material_stream faces)

/-- `bounding_sphere["center"]` (mesh.py lines 385-388). -/
def center (st : MeshState) : Vec3 :=
  ((st.min_vertex.1 + st.max_vertex.1) / 2,
   (st.min_vertex.2.1 + st.max_vertex.2.1) / 2,
   (st.min_vertex.2.2 + st.max_vertex.2.2) / 2)

/-- The squared length of `max_vertex - center`: the emitted radius
(mesh.py line 389, `(max_vertex - center).length`) is the square root of
this exact rational. -/
def radius_sq (st : MeshState) : ℚ :=
  (st.max_vertex.1 - (center st).1) ^ 2 +
  (st.max_vertex.2.1 - (center st).2.1) ^ 2 +
  (st.max_vertex.2.2 - (center st).2.2) ^ 2

/-! ## Closed forms for the dedup walk -/

/-- The key list of the shared `vertex_map` after scanning `S`, starting
from key list `acc`: first occurrences are appended in order. -/
def uniqAux (acc S : List VertexData) : List VertexData :=
  S.foldl (fun a v => if v ∈ a then a else a ++ [v]) acc

theorem uniqAux_nil (acc : List VertexData) : uniqAux acc [] = acc := rfl

theorem uniqAux_cons (acc : List VertexData) (v : VertexData) (S : List VertexData) :
    uniqAux acc (v :: S) = uniqAux (if v ∈ acc then acc else acc ++ [v]) S := rfl

theorem uniqAux_append (acc S T : List VertexData) :
    uniqAux acc (S ++ T) = uniqAux (uniqAux acc S) T :=
  List.foldl_append ..

theorem uniqAux_prefix (acc S : List VertexData) :
    ∃ t, uniqAux acc S = acc ++ t := by
  induction S generalizing acc with
  | nil => exact ⟨[], by simp [uniqAux_nil]⟩
  | cons v S ih =>
    rw [uniqAux_cons]
    by_cases h : v ∈ acc
    · simpa [h] using ih acc
    · obtain ⟨t, ht⟩ := ih (acc ++ [v])
      exact ⟨[v] ++ t, by simp [h, ht]⟩

theorem mem_uniqAux {acc S : List VertexData} {x : VertexData} :
    x ∈ uniqAux acc S ↔ x ∈ acc ∨ x ∈ S := by
  induction S generalizing acc with
  | nil => simp [uniqAux_nil]
  | cons v S ih =>
    rw [uniqAux_cons]
    by_cases h : v ∈ acc
    · rw [if_pos h, ih, List.mem_cons]
      constructor
      · rintro (hx | hx)
        · exact Or.inl hx
        · exact Or.inr (Or.inr hx)
      · rintro (hx | rfl | hx)
        · exact Or.inl hx
        · exact Or.inl h
        · exact Or.inr hx
    · rw [if_neg h, ih, List.mem_append, List.mem_singleton, List.mem_cons]
      tauto

theorem nodup_uniqAux {acc : List VertexData} (S : List VertexData)
    (h : acc.Nodup) : (uniqAux acc S).Nodup := by
  induction S generalizing acc with
  | nil => exact h
  | cons v S ih =>
    rw [uniqAux_cons]
    by_cases hv : v ∈ acc
    · rw [if_pos hv]
      exact ih h
    · rw [if_neg hv]
      refine ih ?_
      rw [List.nodup_append]
      refine ⟨h, List.nodup_singleton v, ?_⟩
      intro a ha hav
      rw [List.mem_singleton] at hav
      exact hv (hav ▸ ha)

theorem indexOf_uniqAux_of_mem {acc : List VertexData} {y : VertexData}
    (S : List VertexData) (h : y ∈ acc) :
    (uniqAux acc S).indexOf y = acc.indexOf y := by
  obtain ⟨t, ht⟩ := uniqAux_prefix acc S
  rw [ht, List.indexOf_append_of_mem h]

theorem indexOf_concat_self {α : Type*} [DecidableEq α] (l : List α) (a : α)
    (h : a ∉ l) : (l ++ [a]).indexOf a = l.length := by
  induction l with
  | nil => simp
  | cons b l ih =>
    have hab : b ≠ a := fun hab => h (hab ▸ List.mem_cons_self b l)
    rw [List.cons_append, List.indexOf_cons_ne _ hab,
      ih (fun hl => h (List.mem_cons_of_mem b hl)), List.length_cons]

/-- After folding `process_loop` over a stream, the `vertex_map` key list
is the first-occurrence dedup of the stream. -/
theorem foldl_uniq (S : List VertexData) (st : MeshState) :
    (S.foldl process_loop st).uniq = uniqAux st.uniq S := by
  induction S generalizing st with
  | nil => rfl
  | cons v S ih =>
    rw [List.foldl_cons, ih, uniqAux_cons]
    by_cases h : v ∈ st.uniq <;> simp [process_loop, update_bounds, h]

theorem foldl_groups (S : List VertexData) (st : MeshState) :
    (S.foldl process_loop st).groups = st.groups := by
  induction S generalizing st with
  | nil => rfl
  | cons v S ih =>
    rw [List.foldl_cons, ih]
    by_cases h : v ∈ st.uniq <;> simp [process_loop, update_bounds, h]

theorem foldl_min_vertex (S : List VertexData) (st : MeshState) :
    (S.foldl process_loop st).min_vertex =
      S.foldl (fun m v => vmin m v.position) st.min_vertex := by
  induction S generalizing st with
  | nil => rfl
  | cons v S ih =>
    rw [List.foldl_cons, ih]
    by_cases h : v ∈ st.uniq <;> simp [process_loop, update_bounds, h]

theorem foldl_max_vertex (S : List VertexData) (st : MeshState) :
    (S.foldl process_loop st).max_vertex =
      S.foldl (fun m v => vmax m v.position) st.max_vertex := by
  induction S generalizing st with
  | nil => rfl
  | cons v S ih =>
    rw [List.foldl_cons, ih]
    by_cases h : v ∈ st.uniq <;> simp [process_loop, update_bounds, h]

/-- After folding `process_loop` over a stream, the index stream has gained
one entry per stream element: the element's position in the final
`vertex_map` key list. -/
theorem foldl_index_array (S : List VertexData) (st : MeshState) :
    (S.foldl process_loop st).index_array =
      st.index_array ++ S.map (fun v => (uniqAux st.uniq S).indexOf v) := by
  induction S generalizing st with
  | nil => simp [uniqAux_nil]
  | cons v S ih =>
    rw [List.foldl_cons, ih]
    by_cases h : v ∈ st.uniq
    · have h1 : (process_loop st v).uniq = st.uniq := by
        simp [process_loop, update_bounds, h]
      have h2 : uniqAux st.uniq (v :: S) = uniqAux st.uniq S := by
        rw [uniqAux_cons, if_pos h]
      have hidx : (process_loop st v).index_array =
          st.index_array ++ [st.uniq.indexOf v] := by
        simp [process_loop, update_bounds, h]
      rw [hidx, h1, List.append_assoc, List.singleton_append, List.map_cons, h2]
      congr 2
      exact (indexOf_uniqAux_of_mem S h).symm
    · have h1 : (process_loop st v).uniq = st.uniq ++ [v] := by
        simp [process_loop, update_bounds, h]
      have h2 : uniqAux st.uniq (v :: S) = uniqAux (st.uniq ++ [v]) S := by
        rw [uniqAux_cons, if_neg h]
      have hidx : (process_loop st v).index_array =
          st.index_array ++ [st.uniq.length] := by
        simp [process_loop, update_bounds, h]
      rw [hidx, h1, List.append_assoc, List.singleton_append, List.map_cons, h2]
      congr 2
      rw [indexOf_uniqAux_of_mem S (by simp), indexOf_concat_self _ _ h]

/-- The nested face/loop fold of `process_material` equals folding over the
flattened face-vertex stream. -/
theorem foldl_faces_eq_stream (fs : List Face) (st : MeshState) :
    fs.foldl (fun acc f => f.loops.foldl process_loop acc) st =
      (fs.flatMap (fun f => f.loops)).foldl process_loop st := by
  induction fs generalizing st with
  | nil => rfl
  | cons f fs ih =>
    rw [List.foldl_cons, List.flatMap_cons, List.foldl_append, ih]

/-- The group records the walk appends, one per processed material slot:
`start` is the running index-stream length and `count` that slot's
contribution - a record is appended whether or not the count is zero. -/
def groupsFor (faces : List Face) : ℕ → List ℕ → List Group
  | _, [] => []
  | base, mi :: rest =>
    ⟨base, (material_stream faces mi).length, mi⟩ ::
      groupsFor faces (base + (material_stream faces mi).length) rest

theorem process_material_uniq (faces : List Face) (st : MeshState) (mi : ℕ) :
    (process_material faces st mi).uniq =
      uniqAux st.uniq (material_stream faces mi) := by
  simp only [process_material, foldl_faces_eq_stream]
  exact foldl_uniq _ _

theorem process_material_index (faces : List Face) (st : MeshState) (mi : ℕ) :
    (process_material faces st mi).index_array = st.index_array ++
      (material_stream faces mi).map
        (fun v => (uniqAux st.uniq (material_stream faces mi)).indexOf v) := by
  simp only [process_material, foldl_faces_eq_stream]
  exact foldl_index_array _ _

theorem process_material_groups (faces : List Face) (st : MeshState) (mi : ℕ) :
    (process_material faces st mi).groups = st.groups ++
      [⟨st.index_array.length, (material_stream faces mi).length, mi⟩] := by
  simp only [process_material, foldl_faces_eq_stream]
  rw [foldl_groups]
  congr 3
  rw [foldl_index_array]
  simp [material_stream, List.length_flatMap]

theorem process_material_min (faces : List Face) (st : MeshState) (mi : ℕ) :
    (process_material faces st mi).min_vertex =
      (material_stream faces mi).foldl (fun m v => vmin m v.position)
        st.min_vertex := by
  simp only [process_material, foldl_faces_eq_stream]
  exact foldl_min_vertex _ _

theorem process_material_max (faces : List Face) (st : MeshState) (mi : ℕ) :
    (process_material faces st mi).max_vertex =
      (material_stream faces mi).foldl (fun m v => vmax m v.position)
        st.max_vertex := by
  simp only [process_material, foldl_faces_eq_stream]
  exact foldl_max_vertex _ _

theorem foldl_pm_uniq (faces : List Face) (ms : List ℕ) (st : MeshState) :
    (ms.foldl (process_material faces) st).uniq =
      uniqAux st.uniq (ms.flatMap (material_stream faces)) := by
  induction ms generalizing st with
  | nil => rfl
  | cons mi ms ih =>
    rw [List.foldl_cons, ih, List.flatMap_cons, uniqAux_append,
      process_material_uniq]

theorem foldl_pm_index (faces : List Face) (ms : List ℕ) (st : MeshState) :
    (ms.foldl (process_material faces) st).index_array = st.index_array ++
      (ms.flatMap (material_stream faces)).map
        (fun v =>
          (uniqAux st.uniq (ms.flatMap (material_stream faces))).indexOf v) := by
  induction ms generalizing st with
  | nil => simp [uniqAux_nil]
  | cons mi ms ih =>
    rw [List.foldl_cons, ih, process_material_index, process_material_uniq,
      List.flatMap_cons, List.map_append, List.append_assoc]
    congr 1
    congr 1
    · refine List.map_congr_left fun v hv => ?_
      rw [uniqAux_append]
      exact (indexOf_uniqAux_of_mem _ (mem_uniqAux.mpr (Or.inr hv))).symm
    · congr 1
      rw [uniqAux_append]

theorem foldl_pm_length (faces : List Face) (ms : List ℕ) (st : MeshState) :
    (ms.foldl (process_material faces) st).index_array.length =
      st.index_array.length + (ms.flatMap (material_stream faces)).length := by
  rw [foldl_pm_index]
  simp

theorem foldl_pm_groups (faces : List Face) (ms : List ℕ) (st : MeshState) :
    (ms.foldl (process_material faces) st).groups =
      st.groups ++ groupsFor faces st.index_array.length ms := by
  induction ms generalizing st with
  | nil => simp [groupsFor]
  | cons mi ms ih =>
    rw [List.foldl_cons, ih, process_material_groups, groupsFor,
      List.append_assoc, List.singleton_append]
    congr 2
    rw [process_material_index]
    simp

theorem foldl_pm_min (faces : List Face) (ms : List ℕ) (st : MeshState) :
    (ms.foldl (process_material faces) st).min_vertex =
      (ms.flatMap (material_stream faces)).foldl
        (fun m v => vmin m v.position) st.min_vertex := by
  induction ms generalizing st with
  | nil => rfl
  | cons mi ms ih =>
    rw [List.foldl_cons, ih, List.flatMap_cons, List.foldl_append,
      process_material_min]

theorem foldl_pm_max (faces : List Face) (ms : List ℕ) (st : MeshState) :
    (ms.foldl (process_material faces) st).max_vertex =
      (ms.flatMap (material_stream faces)).foldl
        (fun m v => vmax m v.position) st.max_vertex := by
  induction ms generalizing st with
  | nil => rfl
  | cons mi ms ih =>
    rw [List.foldl_cons, ih, List.flatMap_cons, List.foldl_append,
      process_material_max]

/-! ## Export-level closed forms -/

theorem export_uniq (n : ℕ) (faces : List Face) :
    (export_mesh n faces).uniq = uniqAux [] (vertexStream n faces) := by
  rw [export_mesh, foldl_pm_uniq]
  rfl

theorem export_index (n : ℕ) (faces : List Face) :
    (export_mesh n faces).index_array = (vertexStream n faces).map
      (fun v => (uniqAux [] (vertexStream n faces)).indexOf v) := by
  rw [export_mesh, foldl_pm_index]
  rfl

theorem export_groups (n : ℕ) (faces : List Face) :
    (export_mesh n faces).groups =
      groupsFor faces 0 (List.range (mat_count n)) := by
  rw [export_mesh, foldl_pm_groups]
  rfl

theorem export_length (n : ℕ) (faces : List Face) :
    (export_mesh n faces).index_array.length =
      (vertexStream n faces).length := by
  rw [export_index, List.length_map]

theorem export_min (n : ℕ) (faces : List Face) :
    (export_mesh n faces).min_vertex =
      (vertexStream n faces).foldl (fun m v => vmin m v.position) zero3 := by
  rw [export_mesh, foldl_pm_min]
  rfl

theorem export_max (n : ℕ) (faces : List Face) :
    (export_mesh n faces).max_vertex =
      (vertexStream n faces).foldl (fun m v => vmax m v.position) zero3 := by
  rw [export_mesh, foldl_pm_max]
  rfl

theorem mem_export_uniq {n : ℕ} {faces : List Face} {x : VertexData} :
    x ∈ (export_mesh n faces).uniq ↔ x ∈ vertexStream n faces := by
  rw [export_uniq, mem_uniqAux]
  simp

/-! ## Sample concrete inputs for witnesses and counterexamples -/

/-- A sample vertex at the origin. -/
def vA : VertexData := ⟨(0, 0, 0), (0, 0, 1), none, none, none, none, none⟩

/-- A sample vertex at x = 1. -/
def vB : VertexData := ⟨(1, 0, 0), (0, 0, 1), none, none, none, none, none⟩

/-- A sample vertex at (2, 2, 2). -/
def vC : VertexData := ⟨(2, 2, 2), (0, 0, 1), none, none, none, none, none⟩

/-- A sample triangle on material slot 0 whose first and third loops carry
identical attribute tuples. -/
def faceAB : Face := ⟨0, [vA, vB, vA]⟩

/-- A degenerate sample triangle, all three loops at (2, 2, 2). -/
def faceC : Face := ⟨0, [vC, vC, vC]⟩

/-! ## C1: vertex deduplication correctness -/

/-- C1: processing the face-vertex stream in material-ascending, face, loop
order, the number of unique vertices emitted equals the number of distinct
attribute tuples in the input; every input face-vertex is assigned exactly
one index appended to the index stream, looking the unique-vertex table up
at that index returns exactly that face-vertex's attribute tuple, and the
dedup map being shared across the whole geometry, two face-vertices with
identical attribute tuples (under any materials) receive the same index. -/
theorem c1_dedup_correctness (n : ℕ) (faces : List Face) :
    (export_mesh n faces).uniq.length = (vertexStream n faces).toFinset.card ∧
    (export_mesh n faces).index_array.length = (vertexStream n faces).length ∧
    (∀ i : ℕ, ((export_mesh n faces).index_array[i]?.bind
        fun j => (export_mesh n faces).uniq[j]?) = (vertexStream n faces)[i]?) ∧
    ∀ i j : ℕ, (vertexStream n faces)[i]? ≠ none →
      (vertexStream n faces)[i]? = (vertexStream n faces)[j]? →
      (export_mesh n faces).index_array[i]? =
        (export_mesh n faces).index_array[j]? := by
  have hnodup : (uniqAux [] (vertexStream n faces)).Nodup :=
    nodup_uniqAux _ List.nodup_nil
  refine ⟨?_, export_length n faces, ?_, ?_⟩
  · rw [export_uniq, ← List.toFinset_card_of_nodup hnodup]
    congr 1
    ext x
    simp [List.mem_toFinset, mem_uniqAux]
  · intro i
    rw [export_index, export_uniq, List.getElem?_map]
    cases hS : (vertexStream n faces)[i]? with
    | none => rfl
    | some v =>
      have hv : v ∈ vertexStream n faces := by
        obtain ⟨hi, rfl⟩ := List.getElem?_eq_some.mp hS
        exact List.getElem_mem hi
      have hmem : v ∈ uniqAux [] (vertexStream n faces) :=
        mem_uniqAux.mpr (Or.inr hv)
      have hlt := List.indexOf_lt_length.mpr hmem
      simp only [Option.map_some', Option.bind_some]
      exact List.getElem?_eq_some.mpr ⟨hlt, List.getElem_indexOf hlt⟩
  · intro i j _ heq
    rw [export_index, List.getElem?_map, List.getElem?_map, heq]

/-- C1 witness: on a triangle whose first and third loops coincide, the
theorem yields equal indices for them. -/
theorem c1_dedup_correctness_witness :
    (vertexStream 1 [faceAB])[0]? ≠ none ∧
    (vertexStream 1 [faceAB])[0]? = (vertexStream 1 [faceAB])[2]? ∧
    (export_mesh 1 [faceAB]).index_array[0]? =
      (export_mesh 1 [faceAB]).index_array[2]? :=
  ⟨by decide, by decide,
    (c1_dedup_correctness 1 [faceAB]).2.2.2 0 2 (by decide) (by decide)⟩

/-! ## C3: group emission -/

theorem groupsFor_length (faces : List Face) (base : ℕ) (ms : List ℕ) :
    (groupsFor faces base ms).length = ms.length := by
  induction ms generalizing base with
  | nil => rfl
  | cons mi ms ih => simp [groupsFor, ih]

/-- C3 counterexample: with two material slots and a single triangle on
slot 0, slot 1 produces zero faces, yet its (count 0) group record is
still emitted - the walk never skips a group. -/
theorem c3_empty_group_counterexample :
    material_stream [faceAB] 1 = [] ∧
    (export_mesh 2 [faceAB]).groups = [⟨0, 3, 0⟩, ⟨3, 0, 1⟩] ∧
    Group.mk 3 0 1 ∈ (export_mesh 2 [faceAB]).groups := by
  refine ⟨by decide, by decide, ?_⟩
  have h : (export_mesh 2 [faceAB]).groups = [⟨0, 3, 0⟩, ⟨3, 0, 1⟩] := by decide
  rw [h]
  simp

/-- C3 amended: after processing each material slot's faces, the group
record `{start := group_start, count := len(index_stream) - group_start,
materialIndex}` is always emitted, including when the material produced
zero faces (a zero-count group): no group is ever skipped, so exactly one
group per material slot appears. -/
theorem c3_groups_amended (n : ℕ) (faces : List Face) :
    (export_mesh n faces).groups =
      groupsFor faces 0 (List.range (mat_count n)) ∧
    (export_mesh n faces).groups.length = mat_count n := by
  refine ⟨export_groups n faces, ?_⟩
  rw [export_groups, groupsFor_length, List.length_range]

/-! ## C5: group partition invariant -/

theorem groupsFor_flat_ranges (faces : List Face) (base : ℕ) (ms : List ℕ) :
    ((groupsFor faces base ms).flatMap
      (fun g => List.range' g.start g.count)) =
      List.range' base (ms.flatMap (material_stream faces)).length := by
  induction ms generalizing base with
  | nil => simp [groupsFor]
  | cons mi ms ih =>
    rw [groupsFor, List.flatMap_cons, ih, List.flatMap_cons,
      List.length_append, Nat.add_comm (material_stream faces mi).length,
      ← List.range'_append]
    simp

theorem groupsFor_matIndexes (faces : List Face) (base : ℕ) (ms : List ℕ) :
    (groupsFor faces base ms).map (fun g => g.materialIndex) = ms := by
  induction ms generalizing base with
  | nil => rfl
  | cons mi ms ih => simp [groupsFor, ih]

/-- C5: concatenating the emitted groups' `[start, start + count)` ranges
in emission order reproduces the full index range
`[0, len(index_stream))` with no gaps or overlaps, and the
`materialIndex` values are non-decreasing across the group list. -/
theorem c5_group_partition (n : ℕ) (faces : List Face) :
    ((export_mesh n faces).groups.flatMap
      (fun g => List.range' g.start g.count)) =
      List.range (export_mesh n faces).index_array.length ∧
    List.Chain' (fun a b => a ≤ b)
      ((export_mesh n faces).groups.map (fun g => g.materialIndex)) := by
  constructor
  · rw [export_groups, groupsFor_flat_ranges, export_length]
    simp only [vertexStream]
    exact (List.range_eq_range' _).symm
  · rw [export_groups, groupsFor_matIndexes]
    exact ((List.pairwise_lt_range _).imp le_of_lt).chain'

/-! ## C6: index stream invariants -/

/-- C6: every value in the emitted index stream is strictly below the
number of unique vertices, and - when every input face is a triangle -
the index stream length is divisible by 3. -/
theorem c6_index_stream_invariants (n : ℕ) (faces : List Face) :
    (∀ i ∈ (export_mesh n faces).index_array,
      i < (export_mesh n faces).uniq.length) ∧
    ((∀ f ∈ faces, f.loops.length = 3) →
      (export_mesh n faces).index_array.length % 3 = 0) := by
  constructor
  · intro i hi
    rw [export_index] at hi
    rw [export_uniq]
    obtain ⟨v, hv, rfl⟩ := List.mem_map.mp hi
    exact List.indexOf_lt_length.mpr (mem_uniqAux.mpr (Or.inr hv))
  · intro htri
    have hdvd : 3 ∣ (vertexStream n faces).length := by
      rw [vertexStream, List.length_flatMap]
      refine List.dvd_sum fun x hx => ?_
      obtain ⟨mi, _, rfl⟩ := List.mem_map.mp hx
      rw [Function.comp_apply, material_stream, List.length_flatMap]
      refine List.dvd_sum fun y hy => ?_
      obtain ⟨f, hf, rfl⟩ := List.mem_map.mp hy
      have hfmem : f ∈ faces := List.mem_of_mem_filter hf
      rw [Function.comp_apply, htri f hfmem]
    rw [export_length]
    omega

/-- C6 witness: a single triangle input satisfies both conjuncts. -/
theorem c6_index_stream_invariants_witness :
    (0 : ℕ) < (export_mesh 1 [faceAB]).uniq.length ∧
    (export_mesh 1 [faceAB]).index_array.length % 3 = 0 :=
  ⟨(c6_index_stream_invariants 1 [faceAB]).1 0 (by decide),
    (c6_index_stream_invariants 1 [faceAB]).2 (by decide)⟩

/-! ## C2: bounding sphere -/

section MinFold

variable {α : Type*} [LinearOrder α]

theorem foldl_min_le_init (l : List α) (init : α) :
    l.foldl min init ≤ init := by
  induction l generalizing init with
  | nil => exact le_refl _
  | cons a l ih => exact le_trans (ih (min init a)) (min_le_left _ _)

theorem foldl_min_le_mem (l : List α) (init : α) {x : α} (hx : x ∈ l) :
    l.foldl min init ≤ x := by
  induction l generalizing init with
  | nil => cases hx
  | cons a l ih =>
    rcases List.mem_cons.mp hx with rfl | hx
    · exact le_trans (foldl_min_le_init l (min init x)) (min_le_right _ _)
    · exact ih (min init a) hx

theorem foldl_min_eq_init_or_mem (l : List α) (init : α) :
    l.foldl min init = init ∨ l.foldl min init ∈ l := by
  induction l generalizing init with
  | nil => exact Or.inl rfl
  | cons a l ih =>
    rcases ih (min init a) with h | h
    · rcases min_choice init a with hm | hm
      · exact Or.inl (by rw [List.foldl_cons, h, hm])
      · exact Or.inr (by rw [List.foldl_cons, h, hm]; exact List.mem_cons_self a l)
    · exact Or.inr (List.mem_cons_of_mem a h)

theorem foldl_min_congr_mem (l l' : List α) (init : α)
    (h : ∀ x, x ∈ l ↔ x ∈ l') : l.foldl min init = l'.foldl min init := by
  have key : ∀ (a b : List α), (∀ x ∈ b, x ∈ a) →
      a.foldl min init ≤ b.foldl min init := by
    intro a b hsub
    rcases foldl_min_eq_init_or_mem b init with hb | hb
    · rw [hb]; exact foldl_min_le_init a init
    · exact foldl_min_le_mem a init (hsub _ hb)
  exact le_antisymm (key l l' fun x hx => (h x).mpr hx)
    (key l' l fun x hx => (h x).mp hx)

theorem foldl_max_ge_init (l : List α) (init : α) :
    init ≤ l.foldl max init := by
  induction l generalizing init with
  | nil => exact le_refl _
  | cons a l ih => exact le_trans (le_max_left _ _) (ih (max init a))

theorem foldl_max_ge_mem (l : List α) (init : α) {x : α} (hx : x ∈ l) :
    x ≤ l.foldl max init := by
  induction l generalizing init with
  | nil => cases hx
  | cons a l ih =>
    rcases List.mem_cons.mp hx with rfl | hx
    · exact le_trans (le_max_right _ _) (foldl_max_ge_init l (max init x))
    · exact ih (max init a) hx

theorem foldl_max_eq_init_or_mem (l : List α) (init : α) :
    l.foldl max init = init ∨ l.foldl max init ∈ l := by
  induction l generalizing init with
  | nil => exact Or.inl rfl
  | cons a l ih =>
    rcases ih (max init a) with h | h
    · rcases max_choice init a with hm | hm
      · exact Or.inl (by rw [List.foldl_cons, h, hm])
      · exact Or.inr (by rw [List.foldl_cons, h, hm]; exact List.mem_cons_self a l)
    · exact Or.inr (List.mem_cons_of_mem a h)

theorem foldl_max_congr_mem (l l' : List α) (init : α)
    (h : ∀ x, x ∈ l ↔ x ∈ l') : l.foldl max init = l'.foldl max init := by
  have key : ∀ (a b : List α), (∀ x ∈ b, x ∈ a) →
      b.foldl max init ≤ a.foldl max init := by
    intro a b hsub
    rcases foldl_max_eq_init_or_mem b init with hb | hb
    · rw [hb]; exact foldl_max_ge_init a init
    · exact foldl_max_ge_mem a init (hsub _ hb)
  exact le_antisymm (key l' l fun x hx => (h x).mp hx)
    (key l l' fun x hx => (h x).mpr hx)

end MinFold

theorem foldl_vmin_proj (l : List Vec3) (init : Vec3) :
    (l.foldl vmin init).1 = (l.map (fun p => p.1)).foldl min init.1 ∧
    (l.foldl vmin init).2.1 = (l.map (fun p => p.2.1)).foldl min init.2.1 ∧
    (l.foldl vmin init).2.2 = (l.map (fun p => p.2.2)).foldl min init.2.2 := by
  induction l generalizing init with
  | nil => exact ⟨rfl, rfl, rfl⟩
  | cons a l ih =>
    simp only [List.foldl_cons, List.map_cons]
    exact ih (vmin init a)

theorem foldl_vmax_proj (l : List Vec3) (init : Vec3) :
    (l.foldl vmax init).1 = (l.map (fun p => p.1)).foldl max init.1 ∧
    (l.foldl vmax init).2.1 = (l.map (fun p => p.2.1)).foldl max init.2.1 ∧
    (l.foldl vmax init).2.2 = (l.map (fun p => p.2.2)).foldl max init.2.2 := by
  induction l generalizing init with
  | nil => exact ⟨rfl, rfl, rfl⟩
  | cons a l ih =>
    simp only [List.foldl_cons, List.map_cons]
    exact ih (vmax init a)

theorem foldl_vmin_congr_mem (l l' : List Vec3) (init : Vec3)
    (h : ∀ p, p ∈ l ↔ p ∈ l') : l.foldl vmin init = l'.foldl vmin init := by
  have hm : ∀ f : Vec3 → ℚ, ∀ q, q ∈ l.map f ↔ q ∈ l'.map f := by
    intro f q
    simp only [List.mem_map]
    exact ⟨fun ⟨p, hp, e⟩ => ⟨p, (h p).mp hp, e⟩,
      fun ⟨p, hp, e⟩ => ⟨p, (h p).mpr hp, e⟩⟩
  obtain ⟨h1, h2, h3⟩ := foldl_vmin_proj l init
  obtain ⟨h1', h2', h3'⟩ := foldl_vmin_proj l' init
  rw [Prod.ext_iff, Prod.ext_iff]
  refine ⟨?_, ?_, ?_⟩
  · rw [h1, h1', foldl_min_congr_mem _ _ _ (hm _)]
  · rw [h2, h2', foldl_min_congr_mem _ _ _ (hm _)]
  · rw [h3, h3', foldl_min_congr_mem _ _ _ (hm _)]

theorem foldl_vmax_congr_mem (l l' : List Vec3) (init : Vec3)
    (h : ∀ p, p ∈ l ↔ p ∈ l') : l.foldl vmax init = l'.foldl vmax init := by
  have hm : ∀ f : Vec3 → ℚ, ∀ q, q ∈ l.map f ↔ q ∈ l'.map f := by
    intro f q
    simp only [List.mem_map]
    exact ⟨fun ⟨p, hp, e⟩ => ⟨p, (h p).mp hp, e⟩,
      fun ⟨p, hp, e⟩ => ⟨p, (h p).mpr hp, e⟩⟩
  obtain ⟨h1, h2, h3⟩ := foldl_vmax_proj l init
  obtain ⟨h1', h2', h3'⟩ := foldl_vmax_proj l' init
  rw [Prod.ext_iff, Prod.ext_iff]
  refine ⟨?_, ?_, ?_⟩
  · rw [h1, h1', foldl_max_congr_mem _ _ _ (hm _)]
  · rw [h2, h2', foldl_max_congr_mem _ _ _ (hm _)]
  · rw [h3, h3', foldl_max_congr_mem _ _ _ (hm _)]

/-- The componentwise minimum corner of a point list, accumulated from the
given initial accumulator (the spec's running one-pass min). -/
def aabb_min (init : Vec3) (ps : List Vec3) : Vec3 := ps.foldl vmin init

/-- The componentwise maximum corner of a point list, accumulated from the
given initial accumulator. -/
def aabb_max (init : Vec3) (ps : List Vec3) : Vec3 := ps.foldl vmax init

/-- The midpoint of two corners (the spec's center formula). -/
def midpoint3 (a b : Vec3) : Vec3 :=
  ((a.1 + b.1) / 2, (a.2.1 + b.2.1) / 2, (a.2.2 + b.2.2) / 2)

/-- Squared Euclidean distance between two points. -/
def dist_sq (a b : Vec3) : ℚ :=
  (b.1 - a.1) ^ 2 + (b.2.1 - a.2.1) ^ 2 + (b.2.2 - a.2.2) ^ 2

/-- Modelled from the spec's words (for the counterexample): the center of
the bounding sphere as the spec states it, the midpoint of the
componentwise min/max of the given (unique vertex) positions alone, with
no extra seed point; `none` when there are no positions. -/
def spec_center (ps : List Vec3) : Option Vec3 :=
  match ps with
  | [] => none
  | p :: rest => some (midpoint3 (aabb_min p rest) (aabb_max p rest))

theorem export_min_positions (n : ℕ) (faces : List Face) :
    (export_mesh n faces).min_vertex =
      aabb_min zero3 ((export_mesh n faces).uniq.map (fun v => v.position)) := by
  rw [export_min, aabb_min, ← List.foldl_map (fun v : VertexData => v.position)]
  refine foldl_vmin_congr_mem _ _ _ fun p => ?_
  simp only [List.mem_map]
  exact ⟨fun ⟨v, hv, e⟩ => ⟨v, mem_export_uniq.mpr hv, e⟩,
    fun ⟨v, hv, e⟩ => ⟨v, mem_export_uniq.mp hv, e⟩⟩

theorem export_max_positions (n : ℕ) (faces : List Face) :
    (export_mesh n faces).max_vertex =
      aabb_max zero3 ((export_mesh n faces).uniq.map (fun v => v.position)) := by
  rw [export_max, aabb_max, ← List.foldl_map (fun v : VertexData => v.position)]
  refine foldl_vmax_congr_mem _ _ _ fun p => ?_
  simp only [List.mem_map]
  exact ⟨fun ⟨v, hv, e⟩ => ⟨v, mem_export_uniq.mpr hv, e⟩,
    fun ⟨v, hv, e⟩ => ⟨v, mem_export_uniq.mp hv, e⟩⟩

/-- C2 counterexample: a triangle whose three loops all sit at (2, 2, 2).
The spec formula (midpoint of min/max of the unique vertex positions)
gives center (2, 2, 2), but the walk's accumulators start at the origin
(`Vector()`), so the emitted center is (1, 1, 1). -/
theorem c2_bounding_sphere_counterexample :
    (export_mesh 1 [faceC]).uniq.map (fun v => v.position) = [(2, 2, 2)] ∧
    spec_center ((export_mesh 1 [faceC]).uniq.map (fun v => v.position)) =
      some (2, 2, 2) ∧
    center (export_mesh 1 [faceC]) = (1, 1, 1) ∧
    spec_center ((export_mesh 1 [faceC]).uniq.map (fun v => v.position)) ≠
      some (center (export_mesh 1 [faceC])) := by
  have h1 : (export_mesh 1 [faceC]).uniq.map (fun v => v.position) =
      [((2 : ℚ), (2 : ℚ), (2 : ℚ))] := by decide
  have hmin : (export_mesh 1 [faceC]).min_vertex =
      ((0 : ℚ), (0 : ℚ), (0 : ℚ)) := by decide
  have hmax : (export_mesh 1 [faceC]).max_vertex =
      ((2 : ℚ), (2 : ℚ), (2 : ℚ)) := by decide
  have hc : center (export_mesh 1 [faceC]) = ((1 : ℚ), (1 : ℚ), (1 : ℚ)) := by
    simp only [center, hmin, hmax]
    norm_num
  have hs : spec_center ((export_mesh 1 [faceC]).uniq.map
      (fun v => v.position)) = some ((2 : ℚ), (2 : ℚ), (2 : ℚ)) := by
    rw [h1]
    simp only [spec_center, aabb_min, aabb_max, List.foldl_nil, midpoint3]
    norm_num
  refine ⟨h1, hs, hc, ?_⟩
  rw [hs, hc]
  intro h
  have h2 := Option.some_injective _ h
  rw [Prod.ext_iff] at h2
  exact absurd h2.1 (by norm_num)

/-- C2 amended: the emitted center is the midpoint of the componentwise
min and max accumulated over all unique vertex positions together with
the initial zero accumulator (the `Vector()` origin is always part of the
min/max), and the emitted radius is the Euclidean distance from that
center to the accumulated max corner. -/
theorem c2_bounding_sphere_amended (n : ℕ) (faces : List Face) :
    center (export_mesh n faces) =
      midpoint3
        (aabb_min zero3 ((export_mesh n faces).uniq.map (fun v => v.position)))
        (aabb_max zero3 ((export_mesh n faces).uniq.map (fun v => v.position))) ∧
    Real.sqrt (radius_sq (export_mesh n faces)) =
      Real.sqrt (dist_sq (center (export_mesh n faces))
        (aabb_max zero3 ((export_mesh n faces).uniq.map (fun v => v.position)))) := by
  constructor
  · rw [center, export_min_positions, export_max_positions, midpoint3]
  · rw [radius_sq, dist_sq, export_max_positions]

/-! ## Float rendering (encoder.py lines 43-47, `Encoder.encode_float`) -/

/-- Round half to even: Python's builtin `round` to an integer, on exact
values. -/
def roundHalfEven (y : ℚ) : ℤ :=
  if y - ⌊y⌋ < 1 / 2 then ⌊y⌋
  else if 1 / 2 < y - ⌊y⌋ then ⌊y⌋ + 1
  else if 2 ∣ ⌊y⌋ then ⌊y⌋ else ⌊y⌋ + 1

/-- The integer numerator of Python's `round(f, p)`: the rounded value is
`pyRoundNum f p / 10 ^ p`. -/
def pyRoundNum (x : ℚ) (p : ℕ) : ℤ := roundHalfEven (x * 10 ^ p)

/-- Python's `round(f, p)` as an exact rational. -/
def pyRound (x : ℚ) (p : ℕ) : ℚ := (pyRoundNum x p : ℚ) / 10 ^ p

/-- Decimal digits of `n`, least significant first, with explicit fuel
(`n` itself is always enough fuel); empty for 0. -/
def natDigitsAux : ℕ → ℕ → List ℕ
  | 0, _ => []
  | fuel + 1, n => if n = 0 then [] else n % 10 :: natDigitsAux fuel (n / 10)

/-- Decimal digits of a positive natural, most significant first. -/
def natDigits (n : ℕ) : List ℕ := (natDigitsAux n n).reverse

/-- The digit list `"%d"` renders for a natural number (`0` is `"0"`). -/
def intList (n : ℕ) : List ℕ := if n = 0 then [0] else natDigits n

/-- The `p` decimal digits, most significant first and zero padded, of the
fraction `F / 10 ^ p` - the fractional part `"%.*f"` renders. -/
def fracDigits : ℕ → ℕ → List ℕ
  | 0, _ => []
  | p + 1, F => F / 10 ^ p :: fracDigits p (F % 10 ^ p)

/-- The numeric value of a digit list, most significant first. -/
def valMSD (ds : List ℕ) : ℕ := Nat.ofDigits 10 ds.reverse

/-- The character of a decimal digit. -/
def toDigitChar (d : ℕ) : Char := Char.ofNat (48 + d)

def digitsToChars (ds : List ℕ) : List Char := ds.map toDigitChar

/-- The characters of `"%.*f" % (p, v)` where `v = n / 10 ^ p` exactly:
sign, integer digits, and - only when `p > 0` - a point followed by
exactly `p` fraction digits. -/
def formatFixed (n : ℤ) (p : ℕ) : List Char :=
  (if n < 0 then ['-'] else []) ++
    digitsToChars (intList (n.natAbs / 10 ^ p)) ++
    (if p = 0 then []
     else '.' :: digitsToChars (fracDigits p (n.natAbs % 10 ^ p)))

/-- Python's `str.rstrip` with a single-character argument. -/
def rstrip (l : List Char) (c : Char) : List Char :=
  (l.reverse.dropWhile (fun a => a = c)).reverse

/-- `Encoder.encode_float` (encoder.py lines 43-47):
`("%.*f" % (precision, round(float(f), precision) + 0)).rstrip("0").rstrip(".")`.
Exact-rational model: round half to even at `p` decimal places (the `+ 0`
only turns `-0.0` into `0.0`, which `ℚ` has no counterpart of - the model
likewise never signs a zero), format with exactly `p` decimals, strip
trailing `'0'` characters, then strip trailing `'.'` characters. -/
def encode_float (x : ℚ) (p : ℕ) : String :=
  ⟨rstrip (rstrip (formatFixed (pyRoundNum x p) p) '0') '.'⟩

/-- A single JSON digit character, as a value. -/
def digitVal (c : Char) : Option ℕ :=
  if 48 ≤ c.toNat ∧ c.toNat ≤ 57 then some (c.toNat - 48) else none

def charsToDigits : List Char → Option (List ℕ)
  | [] => some []
  | c :: cs =>
    match digitVal c, charsToDigits cs with
    | some d, some ds => some (d :: ds)
    | _, _ => none

/-- Parse an unsigned JSON number (no exponent part): digits with no
excess leading zero, optionally a point followed by at least one digit;
returns its exact value. -/
def parseUnsigned (l : List Char) : Option ℚ :=
  match charsToDigits (l.takeWhile (fun c => c ≠ '.')) with
  | none => none
  | some ds =>
    if ds = [] then none
    else if ds.head? = some 0 ∧ ds ≠ [0] then none
    else
      match l.dropWhile (fun c => c ≠ '.') with
      | [] => some (valMSD ds : ℚ)
      | '.' :: fp =>
        match charsToDigits fp with
        | none => none
        | some fs =>
          if fs = [] then none
          else some ((valMSD ds : ℚ) + (valMSD fs : ℚ) / 10 ^ fs.length)
      | _ => none

/-- Parse a JSON number (integer or decimal fraction, no exponent):
`some v` exactly when the string is a valid JSON number of value `v`. -/
def parseDecimal (s : String) : Option ℚ :=
  match s.data with
  | '-' :: rest => (parseUnsigned rest).map (fun q => -q)
  | l => parseUnsigned l

/-! ### Digit-list lemmas -/

theorem natDigitsAux_zero (fuel : ℕ) : natDigitsAux fuel 0 = [] := by
  cases fuel <;> simp [natDigitsAux]

theorem natDigitsAux_ofDigits :
    ∀ fuel n, n ≤ fuel → Nat.ofDigits 10 (natDigitsAux fuel n) = n := by
  intro fuel
  induction fuel with
  | zero =>
    intro n hn
    rw [Nat.le_zero.mp hn, natDigitsAux_zero, Nat.ofDigits_nil]
  | succ fuel ih =>
    intro n hn
    by_cases h : n = 0
    · rw [h, natDigitsAux_zero, Nat.ofDigits_nil]
    · have hdiv : n / 10 ≤ fuel := by
        have := Nat.div_lt_self (Nat.pos_of_ne_zero h) (by norm_num : 1 < 10)
        omega
      rw [natDigitsAux, if_neg h, Nat.ofDigits_cons, ih (n / 10) hdiv]
      omega

theorem natDigitsAux_lt :
    ∀ fuel n, ∀ d ∈ natDigitsAux fuel n, d < 10 := by
  intro fuel
  induction fuel with
  | zero => intro n d hd; simp [natDigitsAux] at hd
  | succ fuel ih =>
    intro n d hd
    by_cases h : n = 0
    · rw [h, natDigitsAux_zero] at hd
      cases hd
    · rw [natDigitsAux, if_neg h] at hd
      rcases List.mem_cons.mp hd with rfl | hd
      · exact Nat.mod_lt n (by norm_num)
      · exact ih (n / 10) d hd

theorem natDigitsAux_last :
    ∀ fuel n, n ≠ 0 → n ≤ fuel →
      ∃ ds d, natDigitsAux fuel n = ds ++ [d] ∧ d ≠ 0 := by
  intro fuel
  induction fuel with
  | zero => intro n hn h0; omega
  | succ fuel ih =>
    intro n hn hle
    rw [natDigitsAux, if_neg hn]
    by_cases h10 : n / 10 = 0
    · have hlt : n < 10 := by omega
      refine ⟨[], n % 10, by rw [h10, natDigitsAux_zero, List.nil_append], ?_⟩
      rw [Nat.mod_eq_of_lt hlt]
      exact hn
    · have hdiv : n / 10 ≤ fuel := by omega
      obtain ⟨ds, d, heq, hd⟩ := ih (n / 10) h10 hdiv
      exact ⟨n % 10 :: ds, d, by rw [heq, List.cons_append], hd⟩

theorem valMSD_natDigits (n : ℕ) : valMSD (natDigits n) = n := by
  rw [valMSD, natDigits, List.reverse_reverse]
  exact natDigitsAux_ofDigits n n le_rfl

theorem natDigits_head (n : ℕ) (h : n ≠ 0) :
    ∃ d ds, natDigits n = d :: ds ∧ d ≠ 0 := by
  obtain ⟨ds, d, heq, hd⟩ := natDigitsAux_last n n h le_rfl
  exact ⟨d, ds.reverse, by rw [natDigits, heq, List.reverse_append]; rfl, hd⟩

theorem natDigits_lt (n : ℕ) : ∀ d ∈ natDigits n, d < 10 := by
  intro d hd
  rw [natDigits, List.mem_reverse] at hd
  exact natDigitsAux_lt n n d hd

theorem valMSD_nil : valMSD [] = 0 := rfl

theorem valMSD_singleton (d : ℕ) : valMSD [d] = d := by
  simp [valMSD, Nat.ofDigits]

theorem valMSD_intList (n : ℕ) : valMSD (intList n) = n := by
  rw [intList]
  by_cases h : n = 0
  · rw [if_pos h, valMSD_singleton, h]
  · rw [if_neg h, valMSD_natDigits]

theorem intList_lt (n : ℕ) : ∀ d ∈ intList n, d < 10 := by
  intro d hd
  rw [intList] at hd
  by_cases h : n = 0
  · rw [if_pos h, List.mem_singleton] at hd
    omega
  · rw [if_neg h] at hd
    exact natDigits_lt n d hd

theorem intList_ne_nil (n : ℕ) : intList n ≠ [] := by
  rw [intList]
  by_cases h : n = 0
  · rw [if_pos h]
    exact List.cons_ne_nil 0 []
  · rw [if_neg h]
    obtain ⟨d, ds, heq, _⟩ := natDigits_head n h
    rw [heq]
    exact List.cons_ne_nil d ds

/-- The no-excess-leading-zero shape of `"%d"` output. -/
theorem intList_head_ok (n : ℕ) :
    ¬((intList n).head? = some 0 ∧ intList n ≠ [0]) := by
  rw [intList]
  by_cases h : n = 0
  · rw [if_pos h]
    rintro ⟨-, hne⟩
    exact hne rfl
  · rw [if_neg h]
    obtain ⟨d, ds, heq, hd⟩ := natDigits_head n h
    rw [heq]
    rintro ⟨hhead, -⟩
    rw [List.head?_cons] at hhead
    exact hd (Option.some_injective _ hhead)

theorem fracDigits_length (p : ℕ) : ∀ F, (fracDigits p F).length = p := by
  induction p with
  | zero => intro F; rfl
  | succ p ih => intro F; rw [fracDigits, List.length_cons, ih]

theorem fracDigits_lt (p : ℕ) :
    ∀ F, F < 10 ^ p → ∀ d ∈ fracDigits p F, d < 10 := by
  induction p with
  | zero => intro F _ d hd; cases hd
  | succ p ih =>
    intro F hF d hd
    rcases List.mem_cons.mp hd with rfl | hd
    · rw [pow_succ] at hF
      exact Nat.div_lt_of_lt_mul hF
    · exact ih (F % 10 ^ p) (Nat.mod_lt F (by positivity)) d hd

theorem valMSD_cons (d : ℕ) (ds : List ℕ) :
    valMSD (d :: ds) = d * 10 ^ ds.length + valMSD ds := by
  rw [valMSD, List.reverse_cons, Nat.ofDigits_append, valMSD,
    List.length_reverse]
  simp [Nat.ofDigits]
  ring

theorem valMSD_append (ds es : List ℕ) :
    valMSD (ds ++ es) = valMSD ds * 10 ^ es.length + valMSD es := by
  rw [valMSD, List.reverse_append, Nat.ofDigits_append, valMSD, valMSD,
    List.length_reverse]
  ring

theorem valMSD_fracDigits (p : ℕ) :
    ∀ F, F < 10 ^ p → valMSD (fracDigits p F) = F := by
  induction p with
  | zero =>
    intro F hF
    interval_cases F
    rfl
  | succ p ih =>
    intro F hF
    rw [fracDigits, valMSD_cons, fracDigits_length,
      ih (F % 10 ^ p) (Nat.mod_lt F (by positivity))]
    exact Nat.div_add_mod' F (10 ^ p)

theorem fracDigits_zero_val (p : ℕ) : fracDigits p 0 = List.replicate p 0 := by
  induction p with
  | zero => rfl
  | succ p ih =>
    rw [fracDigits, Nat.zero_div, Nat.zero_mod, ih, List.replicate_succ]

theorem valMSD_replicate_zero (t : ℕ) : valMSD (List.replicate t 0) = 0 := by
  induction t with
  | zero => rfl
  | succ t ih => rw [List.replicate_succ, valMSD_cons, ih]; ring

/-! ### Character and strip lemmas -/

theorem digitVal_toDigitChar {d : ℕ} (h : d < 10) :
    digitVal (toDigitChar d) = some d := by
  interval_cases d <;> decide

theorem toDigitChar_ne_dot {d : ℕ} (h : d < 10) : toDigitChar d ≠ '.' := by
  interval_cases d <;> decide

theorem toDigitChar_ne_dash {d : ℕ} (h : d < 10) : toDigitChar d ≠ '-' := by
  interval_cases d <;> decide

theorem toDigitChar_eq_zero_iff {d : ℕ} (h : d < 10) :
    toDigitChar d = '0' ↔ d = 0 := by
  interval_cases d <;> decide

theorem charsToDigits_digitsToChars (ds : List ℕ) (h : ∀ d ∈ ds, d < 10) :
    charsToDigits (digitsToChars ds) = some ds := by
  induction ds with
  | nil => rfl
  | cons d ds ih =>
    have h1 := digitVal_toDigitChar (h d (List.mem_cons_self _ _))
    have h2 := ih (fun x hx => h x (List.mem_cons_of_mem _ hx))
    rw [digitsToChars, List.map_cons]
    rw [digitsToChars] at h2
    simp only [charsToDigits, h1, h2]

theorem rstrip_nil (c : Char) : rstrip [] c = [] := rfl

theorem rstrip_append_of_ne (a b : List Char) (c : Char)
    (h : rstrip b c ≠ []) : rstrip (a ++ b) c = a ++ rstrip b c := by
  have h' : ¬(b.reverse.dropWhile (fun x => x = c)).isEmpty = true := by
    rw [List.isEmpty_iff]
    intro he
    apply h
    rw [rstrip, he]
    rfl
  rw [rstrip, rstrip, List.reverse_append, List.dropWhile_append, if_neg h',
    List.reverse_append, List.reverse_reverse]

theorem rstrip_append_all (a b : List Char) (c : Char)
    (h : ∀ x ∈ b, x = c) : rstrip (a ++ b) c = rstrip a c := by
  have h' : (b.reverse.dropWhile (fun x => x = c)).isEmpty = true := by
    rw [List.isEmpty_iff, List.dropWhile_eq_nil_iff]
    intro x hx
    rw [List.mem_reverse] at hx
    simpa using h x hx
  rw [rstrip, rstrip, List.reverse_append, List.dropWhile_append, if_pos h']

theorem rstrip_eq_self_of_getLast (l : List Char) (c d : Char)
    (hd : l.getLast? = some d) (hne : d ≠ c) : rstrip l c = l := by
  have hh : l.reverse.head? = some d := by rw [List.head?_reverse, hd]
  obtain ⟨t, ht⟩ : ∃ t, l.reverse = d :: t := by
    cases hrev : l.reverse with
    | nil => rw [hrev] at hh; cases hh
    | cons x xs =>
      rw [hrev, List.head?_cons] at hh
      exact ⟨xs, by rw [Option.some_injective _ hh]⟩
  have : l = (d :: t).reverse := by rw [← ht, List.reverse_reverse]
  rw [rstrip, ht, List.dropWhile_cons, if_neg (by simpa using hne), ← ht,
    List.reverse_reverse]

theorem takeWhile_append_all (p : Char → Bool) (l1 l2 : List Char)
    (h : ∀ x ∈ l1, p x = true) :
    (l1 ++ l2).takeWhile p = l1 ++ l2.takeWhile p := by
  induction l1 with
  | nil => rfl
  | cons a l ih =>
    rw [List.cons_append, List.takeWhile_cons,
      if_pos (h a (List.mem_cons_self _ _)), List.cons_append,
      ih (fun x hx => h x (List.mem_cons_of_mem _ hx))]

theorem dropWhile_append_all (p : Char → Bool) (l1 l2 : List Char)
    (h : ∀ x ∈ l1, p x = true) :
    (l1 ++ l2).dropWhile p = l2.dropWhile p := by
  induction l1 with
  | nil => rfl
  | cons a l ih =>
    rw [List.cons_append, List.dropWhile_cons,
      if_pos (h a (List.mem_cons_self _ _)),
      ih (fun x hx => h x (List.mem_cons_of_mem _ hx))]

/-- Digit characters are not the point. -/
theorem digitsToChars_ne_dot (ds : List ℕ) (h : ∀ d ∈ ds, d < 10) :
    ∀ c ∈ digitsToChars ds, (decide (c ≠ '.')) = true := by
  intro c hc
  obtain ⟨d, hd, rfl⟩ := List.mem_map.mp hc
  simpa using toDigitChar_ne_dot (h d hd)

/-- A digit list with its trailing zeros dropped. -/
def dz (fs : List ℕ) : List ℕ :=
  (fs.reverse.dropWhile (fun d => d = 0)).reverse

theorem dz_decomposition (fs : List ℕ) :
    fs = dz fs ++ List.replicate (fs.length - (dz fs).length) 0 := by
  have hsplit := List.takeWhile_append_dropWhile (fun d => decide (d = 0))
    fs.reverse
  have htake : fs.reverse.takeWhile (fun d => decide (d = 0)) =
      List.replicate ((fs.reverse.takeWhile (fun d => decide (d = 0))).length)
        0 := by
    rw [List.eq_replicate_iff]
    exact ⟨rfl, fun b hb => by simpa using List.mem_takeWhile_imp hb⟩
  have hlen : (dz fs).length + (fs.reverse.takeWhile
      (fun d => decide (d = 0))).length = fs.length := by
    have := congrArg List.length hsplit
    rw [List.length_append, List.length_reverse] at this
    rw [dz, List.length_reverse]
    omega
  calc fs = fs.reverse.reverse := (List.reverse_reverse fs).symm
    _ = (fs.reverse.takeWhile (fun d => decide (d = 0)) ++
        fs.reverse.dropWhile (fun d => decide (d = 0))).reverse := by
        rw [hsplit]
    _ = dz fs ++ (fs.reverse.takeWhile (fun d => decide (d = 0))).reverse := by
        rw [List.reverse_append, dz]
    _ = dz fs ++ List.replicate (fs.length - (dz fs).length) 0 := by
        have hl : (fs.reverse.takeWhile (fun d => decide (d = 0))).length =
            fs.length - (dz fs).length := by omega
        rw [htake, List.reverse_replicate, hl]

theorem head_dropWhile_not {α : Type*} (p : α → Bool) (l : List α) {x : α}
    {xs : List α} (h : l.dropWhile p = x :: xs) : p x = false := by
  induction l with
  | nil => cases h
  | cons a l ih =>
    rw [List.dropWhile_cons] at h
    by_cases hp : p a = true
    · rw [if_pos hp] at h
      exact ih h
    · rw [if_neg hp] at h
      cases h
      exact Bool.not_eq_true _ |>.mp hp

theorem dz_getLast_ne_zero (fs : List ℕ) (h : dz fs ≠ []) :
    ∃ d, (dz fs).getLast? = some d ∧ d ≠ 0 := by
  cases hdrop : fs.reverse.dropWhile (fun d => decide (d = 0)) with
  | nil => exact absurd (by rw [dz, hdrop]; rfl) h
  | cons x xs =>
    refine ⟨x, ?_, ?_⟩
    · rw [dz, hdrop, ← List.head?_reverse, List.reverse_reverse,
        List.head?_cons]
    · have := head_dropWhile_not _ _ hdrop
      simpa using this

theorem dz_sublist_lt (fs : List ℕ) (h : ∀ d ∈ fs, d < 10) :
    ∀ d ∈ dz fs, d < 10 := by
  intro d hd
  rw [dz, List.mem_reverse] at hd
  exact h d (by
    have := List.dropWhile_sublist (l := fs.reverse)
      (p := fun d => decide (d = 0))
    have hm := this.subset hd
    rwa [List.mem_reverse] at hm)

theorem valMSD_dz (fs : List ℕ) :
    valMSD fs = valMSD (dz fs) * 10 ^ (fs.length - (dz fs).length) := by
  conv_lhs => rw [dz_decomposition fs]
  rw [valMSD_append, valMSD_replicate_zero, List.length_replicate]
  ring

theorem dz_nil_of_val_zero (fs : List ℕ) (h : dz fs = []) : valMSD fs = 0 := by
  rw [valMSD_dz, h, valMSD_nil]
  ring

/-- Stripping trailing `'0'` characters from rendered digits is the same
as dropping trailing zero digits before rendering. -/
theorem rstrip_digitsToChars (fs : List ℕ) (h : ∀ d ∈ fs, d < 10) :
    rstrip (digitsToChars fs) '0' = digitsToChars (dz fs) := by
  conv_lhs => rw [dz_decomposition fs]
  rw [digitsToChars, List.map_append, List.map_replicate]
  have hzero : toDigitChar 0 = '0' := by decide
  rw [hzero]
  rw [rstrip_append_all _ _ _ (fun x hx => (List.mem_replicate.mp hx).2)]
  by_cases hdz : dz fs = []
  · rw [hdz]
    rfl
  · obtain ⟨d, hd, hdne⟩ := dz_getLast_ne_zero fs hdz
    refine rstrip_eq_self_of_getLast _ _ (toDigitChar d) ?_ ?_
    · rw [List.getLast?_map, hd]
      rfl
    · rw [Ne, toDigitChar_eq_zero_iff (dz_sublist_lt fs h d
        (List.mem_of_mem_getLast? hd))]
      exact hdne

/-! ### Parsing rendered numbers -/

theorem takeWhile_all_eq (p : Char → Bool) (l : List Char)
    (h : ∀ x ∈ l, p x = true) : l.takeWhile p = l := by
  have := takeWhile_append_all p l [] h
  simpa using this

theorem dropWhile_all_eq (p : Char → Bool) (l : List Char)
    (h : ∀ x ∈ l, p x = true) : l.dropWhile p = [] := by
  have := dropWhile_append_all p l [] h
  simpa using this

theorem parseUnsigned_int (I : ℕ) :
    parseUnsigned (digitsToChars (intList I)) = some (I : ℚ) := by
  have hlt := intList_lt I
  have hne := digitsToChars_ne_dot _ hlt
  simp only [parseUnsigned, takeWhile_all_eq _ _ hne,
    dropWhile_all_eq _ _ hne, charsToDigits_digitsToChars _ hlt]
  rw [if_neg (intList_ne_nil I), if_neg (intList_head_ok I), valMSD_intList]

theorem parseUnsigned_frac (I : ℕ) (fs : List ℕ) (hfs : fs ≠ [])
    (hlt : ∀ d ∈ fs, d < 10) :
    parseUnsigned (digitsToChars (intList I) ++ '.' :: digitsToChars fs) =
      some ((I : ℚ) + (valMSD fs : ℚ) / 10 ^ fs.length) := by
  have hilt := intList_lt I
  have hne := digitsToChars_ne_dot _ hilt
  have htake : (digitsToChars (intList I) ++
      '.' :: digitsToChars fs).takeWhile (fun c => decide (c ≠ '.')) =
      digitsToChars (intList I) := by
    rw [takeWhile_append_all _ _ _ hne, List.takeWhile_cons]
    simp
  have hdrop : (digitsToChars (intList I) ++
      '.' :: digitsToChars fs).dropWhile (fun c => decide (c ≠ '.')) =
      '.' :: digitsToChars fs := by
    rw [dropWhile_append_all _ _ _ hne, List.dropWhile_cons]
    simp
  simp only [parseUnsigned, htake, hdrop, charsToDigits_digitsToChars _ hilt,
    charsToDigits_digitsToChars _ hlt]
  rw [if_neg (intList_ne_nil I), if_neg (intList_head_ok I), if_neg hfs,
    valMSD_intList]

theorem parseDecimal_dash (l : List Char) :
    parseDecimal ⟨'-' :: l⟩ = (parseUnsigned l).map (fun q => -q) := rfl

theorem parseDecimal_of_ne_dash (l : List Char)
    (h : ∀ rest, l ≠ '-' :: rest) : parseDecimal ⟨l⟩ = parseUnsigned l := by
  unfold parseDecimal
  split
  · rename_i rest heq
    exact absurd heq (h rest)
  · rfl

theorem dcI_append_ne_dash (I : ℕ) (X : List Char) :
    ∀ rest, digitsToChars (intList I) ++ X ≠ '-' :: rest := by
  intro rest hcontra
  cases hi : intList I with
  | nil => exact intList_ne_nil I hi
  | cons d ds =>
    rw [hi, digitsToChars, List.map_cons, List.cons_append,
      List.cons.injEq] at hcontra
    refine toDigitChar_ne_dash (intList_lt I d ?_) hcontra.1
    rw [hi]
    exact List.mem_cons_self _ _

theorem dcI_ne_dash (I : ℕ) :
    ∀ rest, digitsToChars (intList I) ≠ '-' :: rest := by
  intro rest h
  exact dcI_append_ne_dash I [] rest (by rw [List.append_nil, h])

/-- The character shape of `encode_float` for positive precision: sign,
integer digits, and the fraction digits with trailing zeros dropped -
point and all when no fraction digit survives. -/
theorem encode_float_chars (x : ℚ) (p : ℕ) (hp : 1 ≤ p) :
    (encode_float x p).data = (if pyRoundNum x p < 0 then ['-'] else []) ++
      digitsToChars (intList ((pyRoundNum x p).natAbs / 10 ^ p)) ++
      (if dz (fracDigits p ((pyRoundNum x p).natAbs % 10 ^ p)) = [] then []
       else '.' :: digitsToChars
         (dz (fracDigits p ((pyRoundNum x p).natAbs % 10 ^ p)))) := by
  set n := pyRoundNum x p with hn
  set I := n.natAbs / 10 ^ p with hI
  set F := n.natAbs % 10 ^ p with hF
  set fs := fracDigits p F with hfs
  set sign := if n < 0 then (['-'] : List Char) else [] with hsign
  have hFlt : F < 10 ^ p := Nat.mod_lt _ (by positivity)
  have hfs_lt : ∀ d ∈ fs, d < 10 := fracDigits_lt p F hFlt
  have hp0 : p ≠ 0 := by omega
  obtain ⟨dI, hdI⟩ : ∃ d, (intList I).getLast? = some d := by
    cases h : (intList I).getLast? with
    | none => exact absurd (List.getLast?_eq_none_iff.mp h) (intList_ne_nil I)
    | some d => exact ⟨d, rfl⟩
  have hdIlt : dI < 10 := intList_lt I dI (List.mem_of_mem_getLast? hdI)
  have hAlast : (sign ++ digitsToChars (intList I)).getLast? =
      some (toDigitChar dI) := by
    rw [List.getLast?_append, digitsToChars, List.getLast?_map, hdI]
    rfl
  have h1 : formatFixed n p =
      ((sign ++ digitsToChars (intList I)) ++ ['.']) ++ digitsToChars fs := by
    rw [formatFixed, if_neg hp0, ← hI, ← hF, ← hfs, ← hsign]
    simp [List.append_assoc]
  have hsd : (encode_float x p).data =
      rstrip (rstrip (formatFixed n p) '0') '.' := rfl
  by_cases hdz : dz fs = []
  · have hrep : fs = List.replicate fs.length 0 := by
      conv_lhs => rw [dz_decomposition fs]
      rw [hdz]
      simp
    have hall : ∀ c ∈ digitsToChars fs, c = '0' := by
      intro c hc
      obtain ⟨d, hd, rfl⟩ := List.mem_map.mp hc
      rw [hrep] at hd
      rw [(List.mem_replicate.mp hd).2]
      decide
    rw [hsd, h1, rstrip_append_all _ _ _ hall,
      rstrip_eq_self_of_getLast _ _ '.' (List.getLast?_concat _) (by decide),
      rstrip_append_all _ _ _ (fun x hx => List.mem_singleton.mp hx),
      rstrip_eq_self_of_getLast _ _ (toDigitChar dI) hAlast
        (toDigitChar_ne_dot hdIlt),
      if_pos hdz]
    simp
  · have hne2 : rstrip (digitsToChars fs) '0' ≠ [] := by
      rw [rstrip_digitsToChars fs hfs_lt]
      intro hcontra
      exact hdz (List.map_eq_nil_iff.mp hcontra)
    obtain ⟨d, hd, hdne⟩ := dz_getLast_ne_zero fs hdz
    have hdlt : d < 10 := dz_sublist_lt fs hfs_lt d (List.mem_of_mem_getLast? hd)
    have hlast2 : (((sign ++ digitsToChars (intList I)) ++ ['.']) ++
        digitsToChars (dz fs)).getLast? = some (toDigitChar d) := by
      rw [List.getLast?_append, digitsToChars, List.getLast?_map, hd]
      rfl
    rw [hsd, h1, rstrip_append_of_ne _ _ _ hne2, rstrip_digitsToChars fs hfs_lt,
      rstrip_eq_self_of_getLast _ _ (toDigitChar d) hlast2
        (toDigitChar_ne_dot hdlt),
      if_neg hdz]
    simp [List.append_assoc]

/-- The rendered string of `encode_float` at positive precision reparses,
as a JSON number, to exactly the rounded value `round(x, p)`. -/
theorem parseDecimal_encode_float (x : ℚ) (p : ℕ) (hp : 1 ≤ p) :
    parseDecimal (encode_float x p) = some (pyRound x p) := by
  set n := pyRoundNum x p with hn
  set I := n.natAbs / 10 ^ p with hI
  set F := n.natAbs % 10 ^ p with hF
  set fs := fracDigits p F with hfs
  have hFlt : F < 10 ^ p := Nat.mod_lt _ (by positivity)
  have hfs_lt : ∀ d ∈ fs, d < 10 := fracDigits_lt p F hFlt
  have hnat : 10 ^ p * I + F = n.natAbs := Nat.div_add_mod _ _
  have hpow_ne : ((10 : ℚ) ^ p) ≠ 0 := by positivity
  have hchars := encode_float_chars x p hp
  rw [← hn, ← hI, ← hF, ← hfs] at hchars
  have hstring : encode_float x p = ⟨(if n < 0 then ['-'] else []) ++
      digitsToChars (intList I) ++ (if dz fs = [] then []
       else '.' :: digitsToChars (dz fs))⟩ := by
    calc encode_float x p = ⟨(encode_float x p).data⟩ := rfl
      _ = _ := congrArg String.mk hchars
  rw [hstring, pyRound, ← hn]
  by_cases hdz : dz fs = []
  · have hF0 : F = 0 := by
      have h0 := dz_nil_of_val_zero fs hdz
      rw [hfs, valMSD_fracDigits p F hFlt] at h0
      exact h0
    have habs : ((n.natAbs : ℕ) : ℚ) = 10 ^ p * I := by
      exact_mod_cast congrArg (fun m : ℕ => (m : ℚ)) (hF0 ▸ hnat).symm
    rw [if_pos hdz, List.append_nil]
    by_cases hneg : n < 0
    · have hcast : (n : ℚ) = -(10 ^ p * I) := by
        rw [← habs, Int.cast_natAbs, abs_of_neg (by exact_mod_cast hneg)]
        push_cast
        ring
      rw [if_pos hneg, List.singleton_append, parseDecimal_dash,
        parseUnsigned_int]
      rw [Option.map_some']
      congr 1
      rw [eq_div_iff hpow_ne, hcast]
      ring
    · have hcast : (n : ℚ) = 10 ^ p * I := by
        rw [← habs, Int.cast_natAbs, abs_of_nonneg
          (by exact_mod_cast not_lt.mp hneg)]
      rw [if_neg hneg, List.nil_append,
        parseDecimal_of_ne_dash _ (dcI_ne_dash I), parseUnsigned_int]
      congr 1
      rw [eq_div_iff hpow_ne, hcast]
      ring
  · set L := (dz fs).length with hL
    have hdz_lt := dz_sublist_lt fs hfs_lt
    have hlen : fs.length = p := by rw [hfs, fracDigits_length]
    have hLle : L ≤ p := by
      have h1 : (dz fs).length ≤ fs.length := by
        rw [dz, List.length_reverse]
        calc (fs.reverse.dropWhile (fun d => decide (d = 0))).length
            ≤ fs.reverse.length := (List.dropWhile_sublist _).length_le
          _ = fs.length := List.length_reverse fs
      omega
    have hV : F = valMSD (dz fs) * 10 ^ (p - L) := by
      have h1 := valMSD_dz fs
      rw [hfs, valMSD_fracDigits p F hFlt, ← hfs, hlen, ← hL] at h1
      exact h1
    have habs : ((n.natAbs : ℕ) : ℚ) =
        10 ^ p * I + (valMSD (dz fs) : ℚ) * 10 ^ (p - L) := by
      have : 10 ^ p * I + valMSD (dz fs) * 10 ^ (p - L) = n.natAbs := by
        rw [hV] at hnat
        exact hnat
      exact_mod_cast congrArg (fun m : ℕ => (m : ℚ)) this.symm
    have hsplitpow : ((10 : ℚ) ^ p) = 10 ^ L * 10 ^ (p - L) := by
      rw [← pow_add]
      congr 1
      omega
    have hpowL_ne : ((10 : ℚ) ^ L) ≠ 0 := by positivity
    rw [if_neg hdz]
    by_cases hneg : n < 0
    · have hcast : (n : ℚ) =
          -(10 ^ p * I + (valMSD (dz fs) : ℚ) * 10 ^ (p - L)) := by
        rw [← habs, Int.cast_natAbs, abs_of_neg (by exact_mod_cast hneg)]
        push_cast
        ring
      rw [if_pos hneg, List.append_assoc, List.singleton_append,
        parseDecimal_dash, parseUnsigned_frac I (dz fs) hdz hdz_lt,
        Option.map_some']
      congr 1
      rw [eq_div_iff hpow_ne, hcast, ← hL, hsplitpow]
      field_simp
      ring
    · have hcast : (n : ℚ) =
          10 ^ p * I + (valMSD (dz fs) : ℚ) * 10 ^ (p - L) := by
        rw [← habs, Int.cast_natAbs, abs_of_nonneg
          (by exact_mod_cast not_lt.mp hneg)]
      rw [if_neg hneg, List.nil_append,
        parseDecimal_of_ne_dash _ (dcI_append_ne_dash I _),
        parseUnsigned_frac I (dz fs) hdz hdz_lt]
      congr 1
      rw [eq_div_iff hpow_ne, hcast, ← hL, hsplitpow]
      field_simp
      ring

/-- Round half to even moves a value by at most one half. -/
theorem abs_roundHalfEven_sub (y : ℚ) :
    |(roundHalfEven y : ℚ) - y| ≤ 1 / 2 := by
  have h0 : (⌊y⌋ : ℚ) ≤ y := Int.floor_le y
  have h1 : y < ⌊y⌋ + 1 := Int.lt_floor_add_one y
  rw [roundHalfEven]
  split_ifs with hlt hgt hev
  · rw [abs_le]
    constructor <;> linarith
  · rw [abs_le]
    constructor <;> push_cast <;> linarith
  · have htie : y - ⌊y⌋ = 1 / 2 := le_antisymm (not_lt.mp hgt) (not_lt.mp hlt)
    rw [abs_le]
    constructor <;> linarith
  · have htie : y - ⌊y⌋ = 1 / 2 := le_antisymm (not_lt.mp hgt) (not_lt.mp hlt)
    rw [abs_le]
    constructor <;> push_cast <;> linarith

/-- `round(x, p)` is within half an ulp, hence within `10 ^ (-p)`, of `x`. -/
theorem abs_pyRound_sub (x : ℚ) (p : ℕ) :
    |pyRound x p - x| ≤ 1 / 10 ^ p := by
  have h := abs_roundHalfEven_sub (x * 10 ^ p)
  have hpos : (0 : ℚ) < 10 ^ p := by positivity
  have h1 : |(roundHalfEven (x * 10 ^ p) : ℚ) - x * 10 ^ p| ≤ 1 :=
    le_trans h (by norm_num)
  rw [pyRound, pyRoundNum]
  have heq : (roundHalfEven (x * 10 ^ p) : ℚ) / 10 ^ p - x =
      ((roundHalfEven (x * 10 ^ p) : ℚ) - x * 10 ^ p) / 10 ^ p := by
    field_simp
    ring
  rw [heq, abs_div, abs_of_pos hpos, div_le_div_iff₀ hpos hpos, one_mul]
  calc |(roundHalfEven (x * 10 ^ p) : ℚ) - x * 10 ^ p| * 10 ^ p
      ≤ 1 * 10 ^ p := mul_le_mul_of_nonneg_right h1 hpos.le
    _ = 10 ^ p := one_mul _

theorem pyRoundNum_one_three : pyRoundNum 1 3 = 1000 := by
  rw [pyRoundNum, roundHalfEven]
  norm_num

theorem pyRoundNum_example_two : pyRoundNum (12345 / 10000) 2 = 123 := by
  rw [pyRoundNum, roundHalfEven]
  norm_num

theorem pyRoundNum_neg_small : pyRoundNum (-(1 / 100000)) 3 = 0 := by
  rw [pyRoundNum, roundHalfEven]
  norm_num

theorem pyRoundNum_zero_zero : pyRoundNum 0 0 = 0 := by
  rw [pyRoundNum, roundHalfEven]
  norm_num

theorem pyRoundNum_ten_zero : pyRoundNum 10 0 = 10 := by
  rw [pyRoundNum, roundHalfEven]
  norm_num

/-- C4 counterexample: at precision 0 the format has no decimal point, so
`rstrip("0")` eats integer digits: `0.0` renders as the empty string (not
valid JSON at all) and `10.0` renders as `"1"`, which reparses to 1,
farther than `10^0` from the original value. -/
theorem c4_float_rendering_counterexample :
    encode_float 0 0 = "" ∧
    parseDecimal (encode_float 0 0) = none ∧
    encode_float 10 0 = "1" ∧
    parseDecimal (encode_float 10 0) = some 1 ∧
    ¬|(1 : ℚ) - 10| ≤ 1 / 10 ^ (0 : ℕ) := by
  have h0 : encode_float 0 0 = "" := by
    simp only [encode_float, pyRoundNum_zero_zero]
    decide
  have h10 : encode_float 10 0 = "1" := by
    simp only [encode_float, pyRoundNum_ten_zero]
    decide
  refine ⟨h0, ?_, h10, ?_, by norm_num⟩
  · rw [h0]
    decide
  · rw [h10]
    have : parseDecimal "1" = some ((1 : ℕ) : ℚ) := by
      have := parseUnsigned_int 1
      rw [show intList 1 = [1] from by decide] at this
      rw [show digitsToChars [1] = ['1'] from by decide] at this
      rw [parseDecimal_of_ne_dash ['1'] (by intro rest h; cases h)]
      exact this
    rw [this]
    norm_num

/-- C4 amended: the spec's examples hold, and for every value and every
precision `p ≥ 1` (precision 0 excluded: there the stripping corrupts the
integer digits), the rendered string is a valid JSON number that reparses
to exactly `round(x, p)`, which is within `10 ^ (-p)` of the original
value. -/
theorem c4_float_rendering_amended :
    encode_float 1 3 = "1" ∧
    encode_float (12345 / 10000) 2 = "1.23" ∧
    encode_float (-(1 / 100000)) 3 = "0" ∧
    ∀ (x : ℚ) (p : ℕ), 1 ≤ p →
      parseDecimal (encode_float x p) = some (pyRound x p) ∧
      |pyRound x p - x| ≤ 1 / 10 ^ p := by
  refine ⟨?_, ?_, ?_, fun x p hp =>
    ⟨parseDecimal_encode_float x p hp, abs_pyRound_sub x p⟩⟩
  · simp only [encode_float, pyRoundNum_one_three]
    decide
  · simp only [encode_float, pyRoundNum_example_two]
    decide
  · simp only [encode_float, pyRoundNum_neg_small]
    decide

/-- C4 witness: the general part of the amended claim applied at
`x = 1.2345`, `p = 2`. -/
theorem c4_float_rendering_amended_witness :
    (1 : ℕ) ≤ 2 ∧
    (parseDecimal (encode_float (12345 / 10000) 2) =
        some (pyRound (12345 / 10000) 2) ∧
      |pyRound (12345 / 10000) 2 - 12345 / 10000| ≤ 1 / 10 ^ (2 : ℕ)) :=
  ⟨by norm_num,
    c4_float_rendering_amended.2.2.2 (12345 / 10000) 2 (by norm_num)⟩

/-! ## The streaming structured encoder (encoder.py, Encoder.iterencode)

The encoder is modelled twice, from the same source:

* `encF` (with its wrappers `encTree` / `encode`) runs on pure trees,
  where every container is a distinct object, so the `id()`-based
  `markers` bookkeeping never fires and a generator is never iterated
  twice - the model for the skip-empty / lazy-sequence claims.
* `encHF` runs on explicit heaps of container objects addressed by
  identity, with the `markers` set and generator exhaustion explicit -
  the model for the cycle-detection claim.

Both take fuel (structural recursion) so that every concrete run is
kernel-computable; adequate fuel is any bound of the input's size, and
`encF_congr` shows the output does not depend on the fuel chosen. -/

/-- The encoder options: `skip_empty` and `float_precision` from this
`Encoder` subclass (encoder.py lines 30-41), the rest inherited from
`json.JSONEncoder` with their defaults (`indent=None`,
`separators=(", ", ": ")`, `sort_keys=False`). Keys are modelled as
strings only, so `skipkeys` and the non-string key branches are out of
scope; `ensure_ascii` is fixed true; `check_circular` fixed true. -/
structure EncOpts where
  skip_empty : Bool := true
  float_precision : ℕ := 5
  sort_keys : Bool := false
  indent : Option (List Char) := none
  item_separator : List Char := [',', ' ']
  key_separator : List Char := [':', ' ']
deriving DecidableEq, Repr

/-- The default option set of this `Encoder` class. -/
def defaultOpts : EncOpts := {}

/-- A tree value for the encoder: scalars, sequences (with a flag telling
a lazily produced, single-pass sequence - a `GeneratorType` - from a
fixed `list`), and insertion-ordered mappings with string keys. -/
inductive JTree where
  | null
  | bool (b : Bool)
  | int (n : ℤ)
  | float (q : ℚ)
  | str (s : String)
  | seq (lazy : Bool) (items : List JTree)
  | map (items : List (String × JTree))

/-- One hex digit, lowercase, as `"\\u%04x"` renders it. -/
def hexDigit (n : ℕ) : Char :=
  if n < 10 then Char.ofNat (48 + n) else Char.ofNat (87 + n)

/-- A `\\uXXXX` escape for a code unit below 0x10000. -/
def uEscape (n : ℕ) : List Char :=
  ['\\', 'u', hexDigit (n / 4096 % 16), hexDigit (n / 256 % 16),
    hexDigit (n / 16 % 16), hexDigit (n % 16)]

/-- Per-character escaping of `json.encoder.encode_basestring_ascii`:
backslash, quote and the short control escapes, `\\uXXXX` for the other
controls and for everything outside printable ASCII (with surrogate
pairs above 0xFFFF). -/
def escapeChar (c : Char) : List Char :=
  if c = '\\' then ['\\', '\\']
  else if c = '"' then ['\\', '"']
  else if c.toNat = 8 then ['\\', 'b']
  else if c.toNat = 9 then ['\\', 't']
  else if c.toNat = 10 then ['\\', 'n']
  else if c.toNat = 12 then ['\\', 'f']
  else if c.toNat = 13 then ['\\', 'r']
  else if c.toNat < 32 ∨ 127 ≤ c.toNat then
    if c.toNat < 65536 then uEscape c.toNat
    else uEscape (55296 + (c.toNat - 65536) / 1024) ++
      uEscape (56320 + (c.toNat - 65536) % 1024)
  else [c]

/-- `json.encoder.encode_basestring_ascii`: quoted, escaped string. -/
def encode_basestring_ascii (s : String) : List Char :=
  '"' :: (s.data.flatMap escapeChar ++ ['"'])

/-- `str(int(v))`. -/
def intChars (n : ℤ) : List Char :=
  (if n < 0 then ['-'] else []) ++ digitsToChars (intList n.natAbs)

/-- Python truthiness of a tree value (`not value` is `!pyTruthy`):
generators are always truthy; lists, mappings and strings by emptiness;
numbers by comparison with zero. -/
def pyFalsy : JTree → Bool
  | .null => true
  | .bool b => !b
  | .int n => n = 0
  | .float q => q = 0
  | .str s => s.data.isEmpty
  | .seq lazy items => !lazy && items.isEmpty
  | .map items => items.isEmpty

/-- `isinstance(value, (bool, int, float))`. -/
def isNumOrBool : JTree → Bool
  | .bool _ => true
  | .int _ => true
  | .float _ => true
  | _ => false

/-- The skip test of encoder.py lines 144-147:
`skip_empty and not isinstance(value, (bool, int, float)) and not value`. -/
def skipEntry (o : EncOpts) (v : JTree) : Bool :=
  o.skip_empty && !isNumOrBool v && pyFalsy v

/-- Code-point lexicographic order on character lists - how Python
compares the string keys for `sorted`. -/
def charsLt : List Char → List Char → Bool
  | [], [] => false
  | [], _ :: _ => true
  | _ :: _, [] => false
  | a :: as, b :: bs =>
    if a.toNat < b.toNat then true
    else if b.toNat < a.toNat then false
    else charsLt as bs

def strLt (s t : String) : Bool := charsLt s.data t.data

/-- One step of a stable insertion sort by key: the new pair passes only
pairs with strictly smaller keys, so original order is kept among equal
keys - observationally Python's stable `sorted(..., key=kv[0])`. -/
def insertByKey {α : Type*} (p : String × α) :
    List (String × α) → List (String × α)
  | [] => [p]
  | q :: qs => if strLt q.1 p.1 then q :: insertByKey p qs else p :: q :: qs

def sortByKey {α : Type*} : List (String × α) → List (String × α)
  | [] => []
  | p :: ps => insertByKey p (sortByKey ps)

/-- `indent * level`. -/
def repeatList (ind : List Char) (n : ℕ) : List Char :=
  (List.replicate n ind).flatten

/-- The encoder recursion has three entry shapes: a value, the item loop
of `_iterencode_iter`, and the entry loop of `_iterencode_dict` (with the
separator it was given). -/
inductive EncArg where
  | tree (t : JTree) (level : ℕ)
  | seqItems (items : List JTree) (level : ℕ) (first : Bool)
  | mapItems (sep : List Char) (items : List (String × JTree)) (level : ℕ)
      (first : Bool)

/-- `Encoder.iterencode` (encoder.py lines 49-223) on tree inputs, with
the emitted fragments concatenated. Fuel is structural; one unit is spent
per dispatch, list step or entry step. Mirrors the source:

* `_iterencode_iter`: empty non-lazy sequences short-circuit to `"[]"`
  (`if not l` - generators are always truthy); items are joined with
  `item_separator`, never indented, at the caller's `level`.
* `_iterencode_dict`: empty mappings short-circuit to `"{}"`; with
  `indent` set, a newline plus deeper indent follows `"{"`, the
  separator gains that newline, and a newline plus the shallower indent
  precedes `"}"`; entries are sorted by key when `sort_keys`; an entry is
  skipped - `first` untouched - when `skipEntry`; otherwise the escaped
  key, `key_separator` and the value are emitted.
* scalars render as their JSON tokens, floats through `encode_float`. -/
def encF (o : EncOpts) : ℕ → EncArg → Option (List Char)
  | 0, _ => none
  | fuel + 1, arg =>
    match arg with
    | .tree t level =>
      match t with
      | .null => some ['n', 'u', 'l', 'l']
      | .bool true => some ['t', 'r', 'u', 'e']
      | .bool false => some ['f', 'a', 'l', 's', 'e']
      | .int n => some (intChars n)
      | .float q => some (encode_float q o.float_precision).data
      | .str s => some (encode_basestring_ascii s)
      | .seq lazy items =>
        if !lazy && items.isEmpty then some ['[', ']']
        else do
          let out ← encF o fuel (.seqItems items level true)
          some ('[' :: (out ++ [']']))
      | .map items =>
        if items.isEmpty then some ['{', '}']
        else
          let items' := if o.sort_keys then sortByKey items else items
          match o.indent with
          | none => do
            let out ← encF o fuel (.mapItems o.item_separator items' level true)
            some ('{' :: (out ++ ['}']))
          | some ind => do
            let nl := '\n' :: repeatList ind (level + 1)
            let out ← encF o fuel
              (.mapItems (o.item_separator ++ nl) items' (level + 1) true)
            some ('{' :: (nl ++ out ++ ('\n' :: repeatList ind level) ++ ['}']))
    | .seqItems [] _ _ => some []
    | .seqItems (v :: vs) level first => do
      let out1 ← encF o fuel (.tree v level)
      let out2 ← encF o fuel (.seqItems vs level false)
      some ((if first then [] else o.item_separator) ++ out1 ++ out2)
    | .mapItems _ [] _ _ => some []
    | .mapItems sep ((k, v) :: kvs) level first =>
      if skipEntry o v then encF o fuel (.mapItems sep kvs level first)
      else do
        let out1 ← encF o fuel (.tree v level)
        let out2 ← encF o fuel (.mapItems sep kvs level false)
        some ((if first then [] else sep) ++ encode_basestring_ascii k ++
          o.key_separator ++ out1 ++ out2)

/-- `Encoder.iterencode` output at the given fuel, joined into one
string; `none` when the fuel ran out (by `encF_mono` the output does not
depend on which sufficient fuel is used). -/
def encodeF (o : EncOpts) (fuel : ℕ) (t : JTree) : Option String :=
  (encF o fuel (.tree t 0)).map (fun l => ⟨l⟩)

/-! One-step unfolding equations for `encF`, for controlled rewriting. -/

theorem encF_zero (o : EncOpts) (arg : EncArg) : encF o 0 arg = none := rfl

theorem encF_tree_null (o : EncOpts) (f level : ℕ) :
    encF o (f + 1) (.tree .null level) = some ['n', 'u', 'l', 'l'] := rfl

theorem encF_tree_true (o : EncOpts) (f level : ℕ) :
    encF o (f + 1) (.tree (.bool true) level) =
      some ['t', 'r', 'u', 'e'] := rfl

theorem encF_tree_false (o : EncOpts) (f level : ℕ) :
    encF o (f + 1) (.tree (.bool false) level) =
      some ['f', 'a', 'l', 's', 'e'] := rfl

theorem encF_tree_int (o : EncOpts) (f level : ℕ) (n : ℤ) :
    encF o (f + 1) (.tree (.int n) level) = some (intChars n) := rfl

theorem encF_tree_float (o : EncOpts) (f level : ℕ) (q : ℚ) :
    encF o (f + 1) (.tree (.float q) level) =
      some (encode_float q o.float_precision).data := rfl

theorem encF_tree_str (o : EncOpts) (f level : ℕ) (s : String) :
    encF o (f + 1) (.tree (.str s) level) =
      some (encode_basestring_ascii s) := rfl

theorem encF_tree_seq (o : EncOpts) (f level : ℕ) (lazy : Bool)
    (items : List JTree) :
    encF o (f + 1) (.tree (.seq lazy items) level) =
      if (!lazy && items.isEmpty) = true then some ['[', ']']
      else (encF o f (.seqItems items level true)).bind
        (fun out => some ('[' :: (out ++ [']']))) := rfl

theorem encF_tree_map (o : EncOpts) (f level : ℕ)
    (items : List (String × JTree)) :
    encF o (f + 1) (.tree (.map items) level) =
      if items.isEmpty = true then some ['{', '}']
      else
        match o.indent with
        | none =>
          (encF o f (.mapItems o.item_separator
            (if o.sort_keys = true then sortByKey items else items)
            level true)).bind
            (fun out => some ('{' :: (out ++ ['}'])))
        | some ind =>
          (encF o f (.mapItems
            (o.item_separator ++ ('\n' :: repeatList ind (level + 1)))
            (if o.sort_keys = true then sortByKey items else items)
            (level + 1) true)).bind
            (fun out => some ('{' :: (('\n' :: repeatList ind (level + 1)) ++
              out ++ ('\n' :: repeatList ind level) ++ ['}']))) := rfl

theorem encF_seqItems_nil (o : EncOpts) (f level : ℕ) (first : Bool) :
    encF o (f + 1) (.seqItems [] level first) = some [] := rfl

theorem encF_seqItems_cons (o : EncOpts) (f level : ℕ) (first : Bool)
    (v : JTree) (vs : List JTree) :
    encF o (f + 1) (.seqItems (v :: vs) level first) =
      (encF o f (.tree v level)).bind (fun out1 =>
        (encF o f (.seqItems vs level false)).bind (fun out2 =>
          some ((if first then [] else o.item_separator) ++
            out1 ++ out2))) := rfl

theorem encF_mapItems_nil (o : EncOpts) (f level : ℕ) (sep : List Char)
    (first : Bool) :
    encF o (f + 1) (.mapItems sep [] level first) = some [] := rfl

theorem encF_mapItems_cons (o : EncOpts) (f level : ℕ) (sep : List Char)
    (first : Bool) (k : String) (v : JTree)
    (kvs : List (String × JTree)) :
    encF o (f + 1) (.mapItems sep ((k, v) :: kvs) level first) =
      if skipEntry o v = true then
        encF o f (.mapItems sep kvs level first)
      else
        (encF o f (.tree v level)).bind (fun out1 =>
          (encF o f (.mapItems sep kvs level false)).bind (fun out2 =>
            some ((if first then [] else sep) ++
              encode_basestring_ascii k ++ o.key_separator ++
              out1 ++ out2))) := rfl

/-- More fuel never changes a successful run. -/
theorem encF_mono (o : EncOpts) :
    ∀ fuel arg out, encF o fuel arg = some out →
      encF o (fuel + 1) arg = some out := by
  intro fuel
  induction fuel with
  | zero => intro arg out h; simp [encF_zero] at h
  | succ f ih =>
    intro arg out h
    cases arg with
    | tree t level =>
      cases t with
      | null => exact h
      | bool b => cases b <;> exact h
      | int n => exact h
      | float q => exact h
      | str s => exact h
      | seq lazy items =>
        rw [encF_tree_seq] at h
        rw [encF_tree_seq]
        by_cases hc : (!lazy && items.isEmpty) = true
        · rwa [if_pos hc] at h ⊢
        · rw [if_neg hc] at h ⊢
          rw [Option.bind_eq_some] at h ⊢
          obtain ⟨a, ha, hb⟩ := h
          exact ⟨a, ih _ _ ha, hb⟩
      | map items =>
        rw [encF_tree_map] at h
        rw [encF_tree_map]
        by_cases hc : items.isEmpty = true
        · rwa [if_pos hc] at h ⊢
        · rw [if_neg hc] at h ⊢
          cases hind : o.indent with
          | none =>
            rw [hind] at h
            simp only [Option.bind_eq_some] at h ⊢
            obtain ⟨a, ha, hb⟩ := h
            exact ⟨a, ih _ _ ha, hb⟩
          | some ind =>
            rw [hind] at h
            simp only [Option.bind_eq_some] at h ⊢
            obtain ⟨a, ha, hb⟩ := h
            exact ⟨a, ih _ _ ha, hb⟩
    | seqItems items level first =>
      cases items with
      | nil => exact h
      | cons v vs =>
        rw [encF_seqItems_cons] at h
        rw [encF_seqItems_cons]
        simp only [Option.bind_eq_some] at h ⊢
        obtain ⟨a1, h1, a2, h2, h3⟩ := h
        exact ⟨a1, ih _ _ h1, a2, ih _ _ h2, h3⟩
    | mapItems sep items level first =>
      cases items with
      | nil => exact h
      | cons kv kvs =>
        obtain ⟨k, v⟩ := kv
        rw [encF_mapItems_cons] at h
        rw [encF_mapItems_cons]
        by_cases hs : skipEntry o v = true
        · rw [if_pos hs] at h ⊢
          exact ih _ _ h
        · rw [if_neg hs] at h ⊢
          simp only [Option.bind_eq_some] at h ⊢
          obtain ⟨a1, h1, a2, h2, h3⟩ := h
          exact ⟨a1, ih _ _ h1, a2, ih _ _ h2, h3⟩

theorem encF_mono_le (o : EncOpts) {f f' : ℕ} (hle : f ≤ f') :
    ∀ arg out, encF o f arg = some out → encF o f' arg = some out := by
  induction hle with
  | refl => exact fun arg out h => h
  | step _ ih => exact fun arg out h => encF_mono o _ _ _ (ih _ _ h)

/-- Two successful runs at any fuels agree. -/
theorem encF_unique (o : EncOpts) {f f' : ℕ} {arg : EncArg}
    {out out' : List Char} (h : encF o f arg = some out)
    (h' : encF o f' arg = some out') : out = out' := by
  rcases le_total f f' with hle | hle
  · have h2 := encF_mono_le o hle _ _ h
    rw [h2] at h'
    exact Option.some_injective _ h'
  · have h2 := encF_mono_le o hle _ _ h'
    rw [h2] at h
    exact (Option.some_injective _ h).symm

/-- Dropping an entry the skip test rejects leaves the emitted characters
of `_iterencode_dict`'s entry loop unchanged - the key is never written. -/
theorem encF_mapItems_drop_skipped (o : EncOpts) (k : String) (v : JTree)
    (hskip : skipEntry o v = true) :
    ∀ (pre : List (String × JTree)) (fuel : ℕ) (sep : List Char)
      (post : List (String × JTree)) (level : ℕ) (first : Bool)
      (out : List Char),
      encF o fuel (.mapItems sep (pre ++ (k, v) :: post) level first) =
        some out →
      encF o fuel (.mapItems sep (pre ++ post) level first) = some out := by
  intro pre
  induction pre with
  | nil =>
    intro fuel sep post level first out h
    cases fuel with
    | zero => simp [encF_zero] at h
    | succ f =>
      rw [List.nil_append, encF_mapItems_cons, if_pos hskip] at h
      rw [List.nil_append]
      exact encF_mono o _ _ _ h
  | cons kv pre ih =>
    intro fuel sep post level first out h
    obtain ⟨k0, v0⟩ := kv
    cases fuel with
    | zero => simp [encF_zero] at h
    | succ f =>
      rw [List.cons_append, encF_mapItems_cons] at h
      rw [List.cons_append, encF_mapItems_cons]
      by_cases hs : skipEntry o v0 = true
      · rw [if_pos hs] at h ⊢
        exact ih f sep post level first out h
      · rw [if_neg hs] at h ⊢
        simp only [Option.bind_eq_some] at h ⊢
        obtain ⟨a1, h1, a2, h2, h3⟩ := h
        exact ⟨a1, h1, a2, ih f sep post level false a2 h2, h3⟩

/-! ### Lazy-sequence equivalence -/

/-!
`LazyEq`: structural equality up to sequence laziness flags. A sequence's
flag may change freely; at mapping values the two sides must additionally
make the same skip decision - which is automatic whenever `skip_empty` is
false or the sequence is non-empty, because only an empty lazy sequence
in mapping-value position is told apart by the skip test (generators are
truthy, empty lists falsy). -/
mutual
inductive LazyEq (o : EncOpts) : JTree → JTree → Prop where
  | null : LazyEq o .null .null
  | bool (b : Bool) : LazyEq o (.bool b) (.bool b)
  | int (n : ℤ) : LazyEq o (.int n) (.int n)
  | float (q : ℚ) : LazyEq o (.float q) (.float q)
  | str (s : String) : LazyEq o (.str s) (.str s)
  | seq (b b' : Bool) (ts ts' : List JTree) :
      LazyEqList o ts ts' → LazyEq o (.seq b ts) (.seq b' ts')
  | map (kvs kvs' : List (String × JTree)) :
      LazyEqPairs o kvs kvs' → LazyEq o (.map kvs) (.map kvs')

inductive LazyEqList (o : EncOpts) : List JTree → List JTree → Prop where
  | nil : LazyEqList o [] []
  | cons {t t' : JTree} {ts ts' : List JTree} : LazyEq o t t' →
      LazyEqList o ts ts' → LazyEqList o (t :: ts) (t' :: ts')

inductive LazyEqPairs (o : EncOpts) :
    List (String × JTree) → List (String × JTree) → Prop where
  | nil : LazyEqPairs o [] []
  | cons {k : String} {v v' : JTree} {kvs kvs' : List (String × JTree)} :
      LazyEq o v v' → skipEntry o v = skipEntry o v' →
      LazyEqPairs o kvs kvs' →
      LazyEqPairs o ((k, v) :: kvs) ((k, v') :: kvs')
end

/-- The relation between in-flight encoder arguments induced by
`LazyEq`. -/
inductive ArgRel (o : EncOpts) : EncArg → EncArg → Prop where
  | tree {t t' : JTree} (level : ℕ) : LazyEq o t t' →
      ArgRel o (.tree t level) (.tree t' level)
  | seqItems {ts ts' : List JTree} (level : ℕ) (first : Bool) :
      LazyEqList o ts ts' →
      ArgRel o (.seqItems ts level first) (.seqItems ts' level first)
  | mapItems {kvs kvs' : List (String × JTree)} (sep : List Char)
      (level : ℕ) (first : Bool) : LazyEqPairs o kvs kvs' →
      ArgRel o (.mapItems sep kvs level first) (.mapItems sep kvs' level first)

theorem lazyEqPairs_isEmpty {o : EncOpts} {l l' : List (String × JTree)}
    (h : LazyEqPairs o l l') : l.isEmpty = l'.isEmpty := by
  cases h <;> rfl

theorem insertByKey_lazyEqPairs (o : EncOpts) (k : String) {v v' : JTree}
    (hv : LazyEq o v v') (hskip : skipEntry o v = skipEntry o v') :
    ∀ {l l' : List (String × JTree)}, LazyEqPairs o l l' →
      LazyEqPairs o (insertByKey (k, v) l) (insertByKey (k, v') l') := by
  intro l
  induction l with
  | nil =>
    intro l' hll
    cases hll
    exact .cons hv hskip .nil
  | cons q qs ih =>
    intro l' hll
    cases hll with
    | cons hv0 hs0 hrest =>
      rename_i k0 v0 v0' qs'
      rw [insertByKey, insertByKey]
      dsimp only
      by_cases hlt : strLt k0 k = true
      · rw [if_pos hlt, if_pos hlt]
        exact .cons hv0 hs0 (ih hrest)
      · rw [if_neg hlt, if_neg hlt]
        exact .cons hv hskip (.cons hv0 hs0 hrest)

theorem sortByKey_lazyEqPairs (o : EncOpts) :
    ∀ {l l' : List (String × JTree)}, LazyEqPairs o l l' →
      LazyEqPairs o (sortByKey l) (sortByKey l') := by
  intro l
  induction l with
  | nil =>
    intro l' hll
    cases hll
    exact .nil
  | cons q qs ih =>
    intro l' hll
    cases hll with
    | cons hv hs hrest =>
      rw [sortByKey, sortByKey]
      exact insertByKey_lazyEqPairs o _ hv hs (ih hrest)

/-- If a run succeeds, the run on a `LazyEq`-related argument succeeds
with the same output (at some fuel). -/
theorem encF_argRel_some (o : EncOpts) :
    ∀ fuel a a' out, ArgRel o a a' → encF o fuel a = some out →
      ∃ g, encF o g a' = some out := by
  intro fuel
  induction fuel with
  | zero => intro a a' out _ h; simp [encF_zero] at h
  | succ f ih =>
    intro a a' out hrel h
    cases hrel with
    | tree level hl =>
      cases hl with
      | null => exact ⟨f + 1, h⟩
      | bool b => exact ⟨f + 1, h⟩
      | int n => exact ⟨f + 1, h⟩
      | float q => exact ⟨f + 1, h⟩
      | str s => exact ⟨f + 1, h⟩
      | seq b b' ts ts' hts =>
        rw [encF_tree_seq] at h
        cases hts with
        | nil =>
          have hout : out = ['[', ']'] := by
            by_cases hb : (!b && List.isEmpty ([] : List JTree)) = true
            · rw [if_pos hb] at h
              exact (Option.some_injective _ h).symm
            · rw [if_neg hb] at h
              cases f with
              | zero => simp [encF_zero] at h
              | succ f2 =>
                rw [encF_seqItems_nil] at h
                simp at h
                exact h.symm
          refine ⟨2, ?_⟩
          rw [hout, encF_tree_seq]
          by_cases hb' : (!b' && List.isEmpty ([] : List JTree)) = true
          · rw [if_pos hb']
          · rw [if_neg hb', encF_seqItems_nil]
            rfl
        | @cons v v' vs vs' hv hts' =>
          rw [if_neg (by simp)] at h
          rw [Option.bind_eq_some] at h
          obtain ⟨a1, ha1, hb1⟩ := h
          obtain ⟨g, hg⟩ := ih _ _ _
            (ArgRel.seqItems level true (LazyEqList.cons hv hts')) ha1
          refine ⟨g + 1, ?_⟩
          rw [encF_tree_seq, if_neg (by simp), Option.bind_eq_some]
          exact ⟨a1, hg, hb1⟩
      | map kvs kvs' hkv =>
        rw [encF_tree_map] at h
        have hemp := lazyEqPairs_isEmpty hkv
        by_cases he : kvs.isEmpty = true
        · rw [if_pos he] at h
          refine ⟨1, ?_⟩
          have h1 : (1 : ℕ) = 0 + 1 := rfl
          rw [h1, encF_tree_map, if_pos (hemp ▸ he)]
          exact h
        · rw [if_neg he] at h
          have he' : ¬kvs'.isEmpty = true := by
            rw [← hemp]
            exact he
          have hsorted : LazyEqPairs o
              (if o.sort_keys = true then sortByKey kvs else kvs)
              (if o.sort_keys = true then sortByKey kvs' else kvs') := by
            by_cases hs : o.sort_keys = true
            · rw [if_pos hs, if_pos hs]
              exact sortByKey_lazyEqPairs o hkv
            · rw [if_neg hs, if_neg hs]
              exact hkv
          cases hind : o.indent with
          | none =>
            rw [hind] at h
            simp only [Option.bind_eq_some] at h
            obtain ⟨a1, ha1, hb1⟩ := h
            obtain ⟨g, hg⟩ := ih _ _ _
              (ArgRel.mapItems o.item_separator level true hsorted) ha1
            refine ⟨g + 1, ?_⟩
            rw [encF_tree_map, if_neg he', hind]
            simp only [Option.bind_eq_some]
            exact ⟨a1, hg, hb1⟩
          | some ind =>
            rw [hind] at h
            simp only [Option.bind_eq_some] at h
            obtain ⟨a1, ha1, hb1⟩ := h
            obtain ⟨g, hg⟩ := ih _ _ _
              (ArgRel.mapItems (o.item_separator ++
                ('\n' :: repeatList ind (level + 1))) (level + 1) true
                hsorted) ha1
            refine ⟨g + 1, ?_⟩
            rw [encF_tree_map, if_neg he', hind]
            simp only [Option.bind_eq_some]
            exact ⟨a1, hg, hb1⟩
    | seqItems level first hts =>
      cases hts with
      | nil => exact ⟨f + 1, h⟩
      | @cons v v' vs vs' hv hrest =>
        rw [encF_seqItems_cons] at h
        simp only [Option.bind_eq_some] at h
        obtain ⟨a1, h1, a2, h2, h3⟩ := h
        obtain ⟨g1, hg1⟩ := ih _ _ _ (ArgRel.tree level hv) h1
        obtain ⟨g2, hg2⟩ := ih _ _ _ (ArgRel.seqItems level false hrest) h2
        refine ⟨max g1 g2 + 1, ?_⟩
        rw [encF_seqItems_cons]
        simp only [Option.bind_eq_some]
        exact ⟨a1, encF_mono_le o (le_max_left _ _) _ _ hg1, a2,
          encF_mono_le o (le_max_right _ _) _ _ hg2, h3⟩
    | mapItems sep level first hkv =>
      cases hkv with
      | nil => exact ⟨f + 1, h⟩
      | @cons k v v' kvs kvs' hv hskipEq hrest =>
        by_cases hs : skipEntry o v = true
        · rw [encF_mapItems_cons, if_pos hs] at h
          obtain ⟨g, hg⟩ := ih _ _ _ (ArgRel.mapItems sep level first hrest) h
          refine ⟨g + 1, ?_⟩
          rw [encF_mapItems_cons, if_pos (hskipEq ▸ hs)]
          exact hg
        · rw [encF_mapItems_cons, if_neg hs] at h
          simp only [Option.bind_eq_some] at h
          obtain ⟨a1, h1, a2, h2, h3⟩ := h
          obtain ⟨g1, hg1⟩ := ih _ _ _ (ArgRel.tree level hv) h1
          obtain ⟨g2, hg2⟩ := ih _ _ _
            (ArgRel.mapItems sep level false hrest) h2
          refine ⟨max g1 g2 + 1, ?_⟩
          rw [encF_mapItems_cons, if_neg (hskipEq ▸ hs)]
          simp only [Option.bind_eq_some]
          exact ⟨a1, encF_mono_le o (le_max_left _ _) _ _ hg1, a2,
            encF_mono_le o (le_max_right _ _) _ _ hg2, h3⟩

/-! ## C7: skip_empty semantics -/

/-- C7: with `skip_empty` on, a mapping entry whose value is null, an
empty sequence or an empty mapping is omitted entirely - the entry loop
emits the very same characters as without the entry, so not even the key
is written - while `false`, `0` and `0.0` values are never skipped; the
spec's example mapping keeps exactly the keys `c` and `d`. -/
theorem c7_skip_empty_semantics :
    (∀ o : EncOpts, o.skip_empty = true →
      skipEntry o .null = true ∧ skipEntry o (.seq false []) = true ∧
      skipEntry o (.map []) = true) ∧
    (∀ (o : EncOpts) (b : Bool) (n : ℤ) (q : ℚ),
      skipEntry o (.bool b) = false ∧ skipEntry o (.int n) = false ∧
      skipEntry o (.float q) = false) ∧
    (∀ (o : EncOpts) (sep : List Char) (pre post : List (String × JTree))
      (k : String) (v : JTree) (level : ℕ) (first : Bool) (fuel : ℕ)
      (out : List Char),
      o.skip_empty = true →
      (v = JTree.null ∨ v = .seq false [] ∨ v = .map []) →
      encF o fuel (.mapItems sep (pre ++ (k, v) :: post) level first) =
        some out →
      encF o fuel (.mapItems sep (pre ++ post) level first) = some out) ∧
    encodeF defaultOpts 10 (.map [("a", .null), ("b", .seq false []),
      ("c", .int 0), ("d", .bool false)]) =
      some "\x7b\"c\": 0, \"d\": false\x7d" := by
  refine ⟨?_, ?_, ?_, by decide⟩
  · intro o h
    refine ⟨?_, ?_, ?_⟩ <;> simp [skipEntry, isNumOrBool, pyFalsy, h]
  · intro o b n q
    refine ⟨?_, ?_, ?_⟩ <;> simp [skipEntry, isNumOrBool]
  · intro o sep pre post k v level first fuel out hse hv h
    have hskip : skipEntry o v = true := by
      rcases hv with rfl | rfl | rfl <;>
        simp [skipEntry, isNumOrBool, pyFalsy, hse]
    exact encF_mapItems_drop_skipped o k v hskip pre fuel sep post level
      first out h

/-- C7 witness: dropping the skipped `("a", null)` entry leaves the
emitted characters unchanged. -/
theorem c7_skip_empty_semantics_witness :
    encF defaultOpts 8 (.mapItems defaultOpts.item_separator
      ([] ++ [("c", JTree.int 0)]) 0 true) =
      some ['"', 'c', '"', ':', ' ', '0'] :=
  c7_skip_empty_semantics.2.2.1 defaultOpts defaultOpts.item_separator []
    [("c", JTree.int 0)] "a" JTree.null 0 true 8
    ['"', 'c', '"', ':', ' ', '0'] rfl (Or.inl rfl) (by decide)

/-! ## C10: empty strings under skip_empty -/

/-- C10 (implicit in the code): with `skip_empty` on, an entry whose
value is the empty string is also omitted entirely - the string is
neither bool, int nor float, and `not ""` is true - although the spec
lists only null and empty containers; non-empty string values are never
skipped. The example mapping keeps exactly the key `f`. -/
theorem c10_empty_string_skipped :
    (∀ o : EncOpts, o.skip_empty = true → skipEntry o (.str "") = true) ∧
    (∀ (o : EncOpts) (s : String), s ≠ "" → skipEntry o (.str s) = false) ∧
    (∀ (o : EncOpts) (sep : List Char) (pre post : List (String × JTree))
      (k : String) (level : ℕ) (first : Bool) (fuel : ℕ)
      (out : List Char),
      o.skip_empty = true →
      encF o fuel (.mapItems sep (pre ++ (k, JTree.str "") :: post)
        level first) = some out →
      encF o fuel (.mapItems sep (pre ++ post) level first) = some out) ∧
    encodeF defaultOpts 10 (.map [("e", .str ""), ("f", .str "x")]) =
      some "\x7b\"f\": \"x\"\x7d" := by
  refine ⟨?_, ?_, ?_, by decide⟩
  · intro o h
    simp [skipEntry, isNumOrBool, pyFalsy, h]
  · intro o s hs
    have hd : s.data.isEmpty = false := by
      cases hds : s.data.isEmpty
      · rfl
      · exfalso
        apply hs
        rw [List.isEmpty_iff] at hds
        cases s with
        | mk data => exact congrArg String.mk hds
    simp [skipEntry, isNumOrBool, pyFalsy, hd]
  · intro o sep pre post k level first fuel out hse h
    have hskip : skipEntry o (JTree.str "") = true := by
      simp [skipEntry, isNumOrBool, pyFalsy, hse]
    exact encF_mapItems_drop_skipped o k _ hskip pre fuel sep post level
      first out h

/-- C10 witness: dropping the skipped `("e", "")` entry leaves the
emitted characters unchanged. -/
theorem c10_empty_string_skipped_witness :
    encF defaultOpts 8 (.mapItems defaultOpts.item_separator
      ([] ++ [("f", JTree.str "x")]) 0 true) =
      some ['"', 'f', '"', ':', ' ', '"', 'x', '"'] :=
  c10_empty_string_skipped.2.2.1 defaultOpts defaultOpts.item_separator []
    [("f", JTree.str "x")] "e" 0 true 8
    ['"', 'f', '"', ':', ' ', '"', 'x', '"'] rfl (by decide)

/-! ## C9: lazy-sequence equivalence -/

/-- C9 counterexample: with `skip_empty` on (the default), an empty lazy
sequence as a mapping value is emitted as `[]` - generators are truthy,
so the skip test keeps the entry - while the same entry with a fixed
empty sequence is omitted: replacing the lazy sequence by a fixed one
with the same (no) items changes the output. -/
theorem c9_lazy_seq_counterexample :
    encodeF defaultOpts 10 (.map [("k", .seq true [])]) =
      some "\x7b\"k\": []\x7d" ∧
    encodeF defaultOpts 10 (.map [("k", .seq false [])]) =
      some "\x7b\x7d" ∧
    encodeF defaultOpts 10 (.map [("k", .seq true [])]) ≠
      encodeF defaultOpts 10 (.map [("k", .seq false [])]) := by
  refine ⟨by decide, by decide, by decide⟩

/-- C9 amended: lazy and fixed sequences with the same items in the same
order encode character-for-character identically, under every option
setting, except that an empty lazy sequence in mapping-value position is
not skipped by `skip_empty` while an empty fixed one is. `LazyEq` allows
flag flips everywhere, only requiring equal skip decisions at mapping
values, and the first conjunct shows that requirement is automatic
whenever `skip_empty` is off or the sequence is non-empty. -/
theorem c9_lazy_seq_amended :
    (∀ (o : EncOpts) (b : Bool) (ts : List JTree),
      o.skip_empty = false ∨ ts ≠ [] → skipEntry o (.seq b ts) = false) ∧
    ∀ (o : EncOpts) (t t' : JTree) (f f' : ℕ) (out out' : String),
      LazyEq o t t' → encodeF o f t = some out →
      encodeF o f' t' = some out' → out = out' := by
  constructor
  · intro o b ts h
    rcases h with h | h
    · simp [skipEntry, h]
    · cases ts with
      | nil => exact absurd rfl h
      | cons v vs => simp [skipEntry, isNumOrBool, pyFalsy]
  · intro o t t' f f' out out' hrel h h'
    rw [encodeF, Option.map_eq_some'] at h h'
    obtain ⟨l, hl, hlo⟩ := h
    obtain ⟨l', hl', hlo'⟩ := h'
    obtain ⟨g, hg⟩ := encF_argRel_some o f _ _ l (ArgRel.tree 0 hrel) hl
    rw [← hlo, ← hlo', encF_unique o hg hl']

/-- C9 witness: a non-empty lazy sequence as a mapping value encodes the
same as its fixed counterpart. -/
theorem c9_lazy_seq_amended_witness :
    encodeF defaultOpts 6 (.map [("k", .seq true [.int 1])]) =
      some "\x7b\"k\": [1]\x7d" ∧
    ("\x7b\"k\": [1]\x7d" : String) = "\x7b\"k\": [1]\x7d" := by
  refine ⟨by decide, ?_⟩
  exact c9_lazy_seq_amended.2 defaultOpts
    (.map [("k", .seq true [.int 1])])
    (.map [("k", .seq false [.int 1])]) 6 6 _ _
    (LazyEq.map _ _ (LazyEqPairs.cons
      (LazyEq.seq true false _ _ (LazyEqList.cons (LazyEq.int 1)
        LazyEqList.nil)) (by decide) LazyEqPairs.nil))
    (by decide) (by decide)

/-! ## The encoder on heap values: identity, markers and exhaustion -/

/-- A value as `iterencode` sees it: scalars, or a reference to a
container object (Python object identity = the reference's id). -/
inductive HVal where
  | null
  | bool (b : Bool)
  | int (n : ℤ)
  | float (q : ℚ)
  | str (s : String)
  | ref (i : ℕ)
deriving DecidableEq, Repr

/-- A container object: a `list`, a generator (single-pass), or a `dict`
with string keys. -/
inductive PObj where
  | lst (items : List HVal)
  | gen (items : List HVal)
  | dct (items : List (String × HVal))
deriving DecidableEq, Repr

/-- Container objects addressed by identity. -/
def Heap := List (ℕ × PObj)

def lookup (heap : Heap) (i : ℕ) : Option PObj :=
  (List.find? (fun e => e.1 = i) heap).map (fun e => e.2)

/-- The terminal errors of `iterencode`: `ValueError("Circular reference
detected")`, the `TypeError` of an unencodable object (here a dangling
reference, since `default` is not overridden), and fuel exhaustion (never
hit with enough fuel). -/
inductive EncErr where
  | circular
  | unencodable
  | fuel
deriving DecidableEq, Repr

/-- Python truthiness of a heap value: containers by `len`, generators
always truthy. -/
def hFalsy (heap : Heap) : HVal → Bool
  | .null => true
  | .bool b => !b
  | .int n => n = 0
  | .float q => q = 0
  | .str s => s.data.isEmpty
  | .ref i =>
    match lookup heap i with
    | some (.lst items) => items.isEmpty
    | some (.gen _) => false
    | some (.dct items) => items.isEmpty
    | none => false

/-- The skip test of encoder.py lines 144-147, over heap values. -/
def hSkip (o : EncOpts) (heap : Heap) (v : HVal) : Bool :=
  o.skip_empty &&
    !(match v with
      | .bool _ => true
      | .int _ => true
      | .float _ => true
      | _ => false) &&
    hFalsy heap v

/-- Entry shapes of the heap-level recursion. -/
inductive HArg where
  | val (v : HVal) (level : ℕ)
  | seqItems (items : List HVal) (level : ℕ) (first : Bool)
  | dctItems (sep : List Char) (items : List (String × HVal)) (level : ℕ)
      (first : Bool)
deriving DecidableEq, Repr

/-- `Encoder.iterencode` on heap values, with the `markers` dict (the set
of ids of containers open on the active path - added on entry, removed on
exit, which functional argument passing models exactly) and the set of
already exhausted generator ids (a generator iterated a second time
yields nothing) made explicit. The result is the concatenated output and
the updated exhausted set; a revisit of an id in `markers` raises the
circular-reference error. The empty-container fast paths (`if not l` /
`if not d`) come before the marker check and never apply to generators,
which are truthy. -/
def encHF (o : EncOpts) (heap : Heap) :
    ℕ → HArg → List ℕ → List ℕ → Except EncErr (List Char × List ℕ)
  | 0, _, _, _ => .error .fuel
  | fuel + 1, arg, markers, exh =>
    match arg with
    | .val v level =>
      match v with
      | .null => .ok (['n', 'u', 'l', 'l'], exh)
      | .bool true => .ok (['t', 'r', 'u', 'e'], exh)
      | .bool false => .ok (['f', 'a', 'l', 's', 'e'], exh)
      | .int n => .ok (intChars n, exh)
      | .float q => .ok ((encode_float q o.float_precision).data, exh)
      | .str s => .ok (encode_basestring_ascii s, exh)
      | .ref i =>
        match lookup heap i with
        | none => .error .unencodable
        | some (.lst items) =>
          if items.isEmpty then .ok (['[', ']'], exh)
          else if i ∈ markers then .error .circular
          else do
            let (out, exh') ← encHF o heap fuel (.seqItems items level true)
              (i :: markers) exh
            .ok ('[' :: (out ++ [']']), exh')
        | some (.gen items) =>
          if i ∈ markers then .error .circular
          else do
            let (out, exh') ← encHF o heap fuel
              (.seqItems (if i ∈ exh then [] else items) level true)
              (i :: markers) (i :: exh)
            .ok ('[' :: (out ++ [']']), exh')
        | some (.dct items) =>
          if items.isEmpty then .ok (['{', '}'], exh)
          else if i ∈ markers then .error .circular
          else
            let items' := if o.sort_keys then sortByKey items else items
            match o.indent with
            | none => do
              let (out, exh') ← encHF o heap fuel
                (.dctItems o.item_separator items' level true)
                (i :: markers) exh
              .ok ('{' :: (out ++ ['}']), exh')
            | some ind => do
              let nl := '\n' :: repeatList ind (level + 1)
              let (out, exh') ← encHF o heap fuel
                (.dctItems (o.item_separator ++ nl) items' (level + 1) true)
                (i :: markers) exh
              .ok ('{' :: (nl ++ out ++ ('\n' :: repeatList ind level) ++
                ['}']), exh')
    | .seqItems [] _ _ => .ok ([], exh)
    | .seqItems (v :: vs) level first => do
      let (out1, exh1) ← encHF o heap fuel (.val v level) markers exh
      let (out2, exh2) ← encHF o heap fuel (.seqItems vs level false)
        markers exh1
      .ok ((if first then [] else o.item_separator) ++ out1 ++ out2, exh2)
    | .dctItems _ [] _ _ => .ok ([], exh)
    | .dctItems sep ((k, v) :: kvs) level first =>
      if hSkip o heap v then
        encHF o heap fuel (.dctItems sep kvs level first) markers exh
      else do
        let (out1, exh1) ← encHF o heap fuel (.val v level) markers exh
        let (out2, exh2) ← encHF o heap fuel (.dctItems sep kvs level false)
          markers exh1
        .ok ((if first then [] else sep) ++ encode_basestring_ascii k ++
          o.key_separator ++ out1 ++ out2, exh2)

/-! ## C8: cycle detection -/

/-- C8: encoding a mapping that contains itself as a value raises the
circular-reference error - at every sufficient fuel, so the recursion is
cut off rather than infinite - because the container's id is still in the
open-`markers` set when it is revisited on the active path; and since the
id is removed again on exit, a second sibling occurrence of the same
(already closed) container encodes successfully: a list holding the same
dict twice yields its rendering twice. -/
theorem c8_cycle_detection :
    (∀ f : ℕ, encHF defaultOpts [(0, PObj.dct [("self", HVal.ref 0)])]
      (f + 3) (.val (.ref 0) 0) [] [] = .error .circular) ∧
    ∀ f : ℕ, encHF defaultOpts
      [(0, PObj.dct [("x", HVal.int 1)]),
        (1, PObj.lst [HVal.ref 0, HVal.ref 0])]
      (f + 6) (.val (.ref 1) 0) [] [] =
      .ok (("[\x7b\"x\": 1\x7d, \x7b\"x\": 1\x7d]" : String).data, []) := by
  constructor <;> intro f <;> rfl

end ThreeJS
